import Mathlib

/-!
# The routing table of `pkg/route/route.go`

A shallow embedding of `routeItem`, `Route.Add`, `Route.Find` and
`removeSlash`, followed by the properties proved about them.

Conventions of the embedding:

* a Go `[]byte` is a `List Nat` (a `nil` slice and an empty slice are both `[]`);
* a Go `uint64` identifier is a `Nat` (identifiers are only stored and compared);
* a Go `map[string]uint64` is an association list with at most one entry per
  key; a `nil` map is `none`;
* a `*routeItem` into the tree is a `Pointer`: the path of child indices from the
  root together with the node found there;
* `log.Fatalf` and a runtime panic end the process: a function that can reach
  them returns an `Option`, and `none` is that abort.
-/

namespace route

/-- Go `[]byte`. -/
abbrev Bytes := List Nat

/-- Modelled from the spec: the kind tag `slashType` of the tokenizer (declared outside
route.go). The spec fixes only the order of the five tags,
`Slash < Number < Enum < Const < String`; they are numbered 0 to 4 in that order. -/
abbrev slashType : Nat := 0

/-- Modelled from the spec: the kind tag `numberType`, second in the specificity rank. -/
abbrev numberType : Nat := 1

/-- Modelled from the spec: the kind tag `enumType`, third in the specificity rank. -/
abbrev enumType : Nat := 2

/-- Modelled from the spec: the kind tag `constType`, fourth in the specificity rank. -/
abbrev constType : Nat := 3

/-- Modelled from the spec: the kind tag `stringType`, last in the specificity rank. -/
abbrev stringType : Nat := 4

/-- Modelled from the spec: the tokenizer's segment descriptor `node` (declared outside
route.go): kind tag, raw bytes (the literal of a `Const`, the pipe-delimited
alternatives of an `Enum`), and the parameter binding. -/
structure node where
  nt : Nat
  value : Bytes
  hasArg : Bool
  argName : Bytes
deriving DecidableEq

/-- Modelled from the spec: `node.isNumberValue` (declared outside route.go): the literal
is non-empty and every byte is an ASCII digit. -/
def node.isNumberValue (n : node) : Bool :=
  !n.value.isEmpty && n.value.all (fun b => decide (48 ≤ b) && decide (b ≤ 57))

/-- Modelled from the spec: the alternatives of an `Enum` segment, its value cut at
every pipe byte. -/
def node.enumAlternatives (n : node) : List Bytes :=
  n.value.splitOn 124

/-- Modelled from the spec: `node.inEnumValue` (declared outside route.go): the literal
is byte-identical to one of the pipe-delimited alternatives. -/
def node.inEnumValue (n : node) (value : Bytes) : Bool :=
  n.enumAlternatives.contains value

/-- Go `type routeItem struct { node; children; apis }`. -/
inductive routeItem where
  | mk (node : node) (children : List routeItem) (apis : Option (List (String × Nat)))

/-- Field `node` of a `routeItem`. -/
def routeItem.node : routeItem → route.node
  | routeItem.mk n _ _ => n

/-- Field `children` of a `routeItem`. -/
def routeItem.children : routeItem → List routeItem
  | routeItem.mk _ cs _ => cs

/-- Field `apis` of a `routeItem`. -/
def routeItem.apis : routeItem → Option (List (String × Nat))
  | routeItem.mk _ _ a => a

/-- What route.go takes from outside its own file and the spec leaves open: the
match-all wildcard literal of the tokenizer, and the library routine `sort.Slice`,
of which only the contract is used: the result is a rearrangement of the slice in
which no element is `less` than an earlier one (Go does not promise stability). -/
structure Env where
  matchAll : Bytes
  sortSlice : List routeItem → List routeItem
  sortSlice_perm : ∀ l, List.Perm (sortSlice l) l
  sortSlice_sorted : ∀ l, List.Pairwise (fun a b => a.node.nt ≤ b.node.nt) (sortSlice l)

/-- The insertion sort that Go's `sort.Slice` runs on slices of at most twelve
elements, under `less(i, j) = children[i].node.nt < children[j].node.nt`. -/
def insertionSortSlice (l : List routeItem) : List routeItem :=
  l.insertionSort (fun a b => a.node.nt ≤ b.node.nt)

/-- The environment used for concrete runs: the wildcard literal is the single byte
`*` and `sort.Slice` is the insertion sort. -/
def goEnv : Env where
  matchAll := [42]
  sortSlice := insertionSortSlice
  sortSlice_perm := fun l => List.perm_insertionSort _ l
  sortSlice_sorted := fun l =>
    @List.sorted_insertionSort routeItem (fun a b => a.node.nt ≤ b.node.nt) _
      ⟨fun a b => Nat.le_total a.node.nt b.node.nt⟩
      ⟨fun _ _ _ h1 h2 => Nat.le_trans h1 h2⟩ l

/-- Modelled from the spec: `node.isMatchAllConstString` (declared outside route.go): the
literal is the match-all wildcard. -/
def node.isMatchAllConstString (E : Env) (n : node) : Bool :=
  n.value == E.matchAll

/-- Go `routeItem.urlMatches`: whether the pattern node accepts a request segment.
The `default` branch calls `log.Fatalf`: `none`. -/
def routeItem.urlMatches (E : Env) (item : routeItem) (n : route.node) : Option Bool :=
  if item.node.nt = slashType then some (decide (n.nt = slashType))
  else if item.node.nt = numberType then some n.isNumberValue
  else if item.node.nt = enumType then some (item.node.inEnumValue n.value)
  else if item.node.nt = constType then
    some (item.node.isMatchAllConstString E || decide (item.node.value = n.value))
  else if item.node.nt = stringType then some true
  else none

/-- Go `routeItem.matches`: whether the pattern node is the node of a pattern segment.
The `default` branch calls `log.Fatalf`: `none`. -/
def routeItem.matches (item : routeItem) (n : route.node) : Option Bool :=
  if item.node.nt ≠ n.nt then some false
  else if item.node.nt = slashType then some true
  else if item.node.nt = numberType then some true
  else if item.node.nt = stringType then some true
  else if item.node.nt = constType then some (decide (item.node.value = n.value))
  else if item.node.nt = enumType then some true
  else none

/-- The inner loop of `Add` and `Find`, `for _, item := range children`, stopping at
the first child the test accepts: `some (some (i, item))` is that child and its
index, `some none` is a scan that accepted no child, `none` is an abort of the test. -/
def scanChildren (test : routeItem → Option Bool) :
    Nat → List routeItem → Option (Option (Nat × routeItem))
  | _, [] => some none
  | i, item :: rest =>
    match test item with
    | none => none
    | some true => some (some (i, item))
    | some false => scanChildren test (i + 1) rest

/-- A `*routeItem` into the tree: the child indices leading to it from the root, and
the node it points to. -/
structure Pointer where
  path : List Nat
  item : routeItem

/-- Go `map[string]uint64` read `m[k]`: the stored value, or zero for a missing key. -/
def mapIndex (m : List (String × Nat)) (k : String) : Nat :=
  (m.lookup k).getD 0

/-- Go `map[string]uint64` write `m[k] = v`. -/
def mapSet (m : List (String × Nat)) (k : String) (v : Nat) : List (String × Nat) :=
  if (m.lookup k).isSome then m.map (fun e => if e.1 = k then (k, v) else e)
  else m ++ [(k, v)]

/-- The loop `for _, id := range m { conflict = id; break }` started from
`conflict := 0`: Go leaves the iteration order of a map open, `seed` picks the entry
that comes first. -/
def mapRangeFirst (m : List (String × Nat)) (seed : Nat) : Nat :=
  match m[seed % m.length]? with
  | some e => e.2
  | none => 0

/-- The item with its `children` replaced. -/
def routeItem.setChildren (item : routeItem) (cs : List routeItem) : routeItem :=
  routeItem.mk item.node cs item.apis

/-- The item with its `apis` replaced. -/
def routeItem.setApis (item : routeItem) (a : List (String × Nat)) : routeItem :=
  routeItem.mk item.node item.children (some a)

/-- Go `routeItem.addChildren`: hang the chain of `nodes` under the item, each new
node appended to its parent's children, which are then sorted by kind tag, and
register `method -> id` on the last node of the chain (the item itself for an empty
chain). The new node is filled before it is appended; `less` reads only `node.nt`. -/
def routeItem.addChildren (E : Env) (id : Nat) (method : String) :
    List route.node → routeItem → routeItem
  | [], parent => parent.setApis (mapSet (parent.apis.getD []) method id)
  | n :: rest, parent =>
    let p := routeItem.addChildren E id method rest (routeItem.mk n [] none)
    parent.setChildren (E.sortSlice (parent.children ++ [p]))

/-- Replace the element at index `i` of a list by its image. -/
def modifyNth {α : Type} (f : α → α) : Nat → List α → List α
  | _, [] => []
  | 0, a :: l => f a :: l
  | i + 1, a :: l => a :: modifyNth f i l

/-- Writing through a pointer: apply `f` to the node at the end of `path`. -/
def routeItem.updateAt (f : routeItem → routeItem) : List Nat → routeItem → routeItem
  | [], t => f t
  | i :: p, t => t.setChildren (modifyNth (routeItem.updateAt f p) i t.children)

/-- Go `type Route struct { root *routeItem }`. -/
structure Route where
  root : routeItem

/-- Go `NewRoute`. -/
def NewRoute : Route :=
  ⟨routeItem.mk ⟨slashType, [], false, []⟩ [] none⟩

/-- Go `removeSlash`, the loop from index `idx` on. -/
def removeSlashFrom : Nat → List node → List node
  | _, [] => []
  | idx, n :: rest =>
    if n.nt ≠ slashType then n :: removeSlashFrom (idx + 1) rest
    else if n.nt = slashType ∧ idx = 0 then n :: removeSlashFrom (idx + 1) rest
    else removeSlashFrom (idx + 1) rest

/-- Go `removeSlash`. -/
def removeSlash (nodes : List node) : List node :=
  removeSlashFrom 0 nodes

/-- The fields of `metapb.API` that `Add` reads. `URLPattern` holds what
`newParser(api.URLPattern).parse()` returns: the tokenizer is outside route.go. -/
structure API where
  ID : Nat
  URLPattern : Except String (List node)
  Method : String

/-- The non-nil `error` values `Add` returns: the tokenizer's error, or
`conflict with api <id>`. -/
inductive AddError where
  | malformed (msg : String)
  | conflict (id : Nat)
deriving DecidableEq

/-- The walk of `Add`: `for idx, node := range nodes`, from index `idx` with the
current `parent` and `matchedIdx`; the result is their value after the loop. -/
def addLoop : Pointer → Nat → Nat → List node → Option (Pointer × Nat)
  | parent, _, matchedIdx, [] => some (parent, matchedIdx)
  | parent, idx, matchedIdx, n :: rest =>
    match parent.item.matches n with
    | none => none
    | some true => addLoop parent (idx + 1) idx rest
    | some false =>
      match scanChildren (fun item => item.matches n) 0 parent.item.children with
      | none => none
      | some (some (i, item)) => addLoop ⟨parent.path ++ [i], item⟩ (idx + 1) idx rest
      | some none => some (parent, matchedIdx)

/-- Go `Route.Add`: the route after the call and the returned error (`none` is `nil`).
`matchedIdx == len(nodes)-1` over Go's signed `int` is `matchedIdx + 1 = len(nodes)`;
`nodes[matchedIdx+1:]` panics when `matchedIdx + 1` exceeds the length. -/
def Add (E : Env) (r : Route) (api : API) (seed : Nat) : Option (Route × Option AddError) :=
  match api.URLPattern with
  | Except.error e => some (r, some (AddError.malformed e))
  | Except.ok parsed =>
    let nodes := removeSlash parsed
    match addLoop ⟨[], r.root⟩ 0 0 nodes with
    | none => none
    | some (parent, matchedIdx) =>
      if matchedIdx + 1 = nodes.length then
        match parent.item.apis with
        | some t =>
          if api.Method = "*" ∧ t.length > 0 then
            some (r, some (AddError.conflict (mapRangeFirst t seed)))
          else if mapIndex t "*" ≠ 0 then
            some (r, some (AddError.conflict (mapIndex t "*")))
          else if mapIndex t api.Method ≠ 0 then
            some (r, some (AddError.conflict (mapIndex t api.Method)))
          else
            some (⟨r.root.updateAt (fun p => p.setApis (mapSet t api.Method api.ID))
              parent.path⟩, none)
        | none =>
          some (⟨r.root.updateAt (fun p => p.setApis (mapSet [] api.Method api.ID))
            parent.path⟩, none)
      else if matchedIdx + 1 ≤ nodes.length then
        some (⟨r.root.updateAt
          (fun p => p.addChildren E api.ID api.Method (nodes.drop (matchedIdx + 1)))
          parent.path⟩, none)
      else none

/-- The guarded call `if item.node.hasArg { if paramsFunc != nil { paramsFunc(...) } }`;
the sink is a function on the caller's state. -/
def callParams {σ : Type} (paramsFunc : Option (Bytes → Bytes → σ → σ)) (item : routeItem)
    (n : node) (s : σ) : σ :=
  if item.node.hasArg then
    match paramsFunc with
    | some f => f item.node.argName n.value s
    | none => s
  else s

/-- The walk of `Find`: `for idx, node := range nodes`, from index `idx` with the
current `target`, `matchedIdx` and sink state; the result is their value after the
loop. -/
def findLoop {σ : Type} (E : Env) (paramsFunc : Option (Bytes → Bytes → σ → σ)) :
    routeItem → Nat → Nat → σ → List node → Option (routeItem × Nat × σ)
  | target, _, matchedIdx, s, [] => some (target, matchedIdx, s)
  | target, idx, matchedIdx, s, n :: rest =>
    match target.urlMatches E n with
    | none => none
    | some true => findLoop E paramsFunc target (idx + 1) idx (callParams paramsFunc target n s) rest
    | some false =>
      match scanChildren (fun item => item.urlMatches E n) 0 target.children with
      | none => none
      | some (some (_, item)) =>
        findLoop E paramsFunc item (idx + 1) idx (callParams paramsFunc item n s) rest
      | some none => some (target, matchedIdx, s)

/-- The end of `Find`, after the walk: the lookup in the method table of `target`. -/
def findResult (target : routeItem) (matchedIdx len : Nat) (method : String) : Nat × Bool :=
  if matchedIdx + 1 = len then
    match target.apis with
    | none => (0, false)
    | some t =>
      match t.lookup method with
      | some id => (id, true)
      | none =>
        match t.lookup "*" with
        | some id => (id, true)
        | none => (0, false)
  else (0, false)

/-- Go `Route.Find`: the returned pair and the state the sink calls leave. `url`
holds what `newParser(url).parse()` returns. -/
def Find {σ : Type} (E : Env) (r : Route) (url : Except String (List node)) (method : String)
    (paramsFunc : Option (Bytes → Bytes → σ → σ)) (s : σ) : Option ((Nat × Bool) × σ) :=
  match url with
  | Except.error _ => some ((0, false), s)
  | Except.ok parsed =>
    let nodes := removeSlash parsed
    match findLoop E paramsFunc r.root 0 0 s nodes with
    | none => none
    | some (target, matchedIdx, s1) =>
      some (findResult target matchedIdx nodes.length method, s1)

/-- The sink that records its calls in order. -/
def recordParams : Option (Bytes → Bytes → List (Bytes × Bytes) → List (Bytes × Bytes)) :=
  some (fun name value calls => calls ++ [(name, value)])

/-- Go `hack.StringToSlice` on the ASCII strings used in the examples: one byte per
character. -/
def StringToSlice (s : String) : Bytes :=
  s.toList.map Char.toNat

/-- The node a path of child indices leads to, if there is one. -/
def routeItem.nodeAt : List Nat → routeItem → Option routeItem
  | [], t => some t
  | i :: p, t => t.children[i]?.bind (routeItem.nodeAt p)

/-- A property that holds of a node and of every node below it. -/
inductive routeItem.Every (P : routeItem → Prop) : routeItem → Prop
  | intro (t : routeItem) : P t → (∀ c ∈ t.children, routeItem.Every P c) →
      routeItem.Every P t

/-- The children of the node are in non-decreasing order of kind tag. -/
def routeItem.SortedChildren (t : routeItem) : Prop :=
  t.children.Pairwise (fun a b => a.node.nt ≤ b.node.nt)

/-- The routes reachable from `NewRoute()` by `Add` calls that return, whatever they
return. -/
inductive Reachable (E : Env) : Route → Prop
  | new : Reachable E NewRoute
  | add {r r' : Route} {api : API} {seed : Nat} {err : Option AddError} :
      Reachable E r → Add E r api seed = some (r', err) → Reachable E r'

/-- In the words of the spec (lookup, steps 3 to 5): for each request segment in turn,
the node that matches it, which is the current node if Compatible and otherwise the
first Compatible child, the walk then standing on that node; the list ends with the
request or at the first segment no node matches. `none` is an abort of the
compatibility test. -/
def matchedNodes (E : Env) : routeItem → List node → Option (List routeItem)
  | _, [] => some []
  | cur, n :: rest =>
    match cur.urlMatches E n with
    | none => none
    | some true => (matchedNodes E cur rest).map (fun ms => cur :: ms)
    | some false =>
      match scanChildren (fun item => item.urlMatches E n) 0 cur.children with
      | none => none
      | some (some (_, c)) => (matchedNodes E c rest).map (fun ms => c :: ms)
      | some none => some []

/-- In the words of the spec (lookup, step 4): one parameter `(argName, literal value)`
for each matched segment whose matching node `hasArg`, in request order. -/
def paramsOf (ms : List routeItem) (nodes : List node) : List (Bytes × Bytes) :=
  (ms.zip nodes).filterMap
    (fun p => if p.1.node.hasArg then some (p.1.node.argName, p.2.value) else none)

/-- In the words of the spec (insert, step 2): the sequence with every `Slash` segment
at an index greater than 0 removed, the rest kept in order. -/
def dropInnerSlashes (s : List node) : List node :=
  (s.enum.filter (fun p => !(decide (p.2.nt = slashType) && decide (0 < p.1)))).map Prod.snd

/-- The routes reachable from `NewRoute()` by `Add` calls that return, whatever they
return, each on an argument that is `allowed`. -/
inductive ReachableBy (E : Env) (allowed : API → Prop) : Route → Prop
  | new : ReachableBy E allowed NewRoute
  | add {r r' : Route} {api : API} {seed : Nat} {err : Option AddError} :
      ReachableBy E allowed r → allowed api → Add E r api seed = some (r', err) →
      ReachableBy E allowed r'

/-- The second tree is the first one grown: the node keeps its segment, every entry of
its method table is still there with the same identifier, and its children are still
its children, each grown in turn, next to children that were not there before, in
some order. -/
inductive routeItem.Extends : routeItem → routeItem → Prop
  | refl (t : routeItem) : routeItem.Extends t t
  | grow (t t' : routeItem) (cs extra : List routeItem) :
      t'.node = t.node →
      (∀ tb, t.apis = some tb → ∃ tb', t'.apis = some tb' ∧
        ∀ k v, tb.lookup k = some v → tb'.lookup k = some v) →
      List.Forall₂ routeItem.Extends t.children cs →
      t'.children.Perm (cs ++ extra) →
      routeItem.Extends t t'

/-- The method table of the node, when present, is non-empty, holds no zero
identifier, has one entry per key, and has either only the key `*` or no key `*`. -/
def routeItem.TableOK (t : routeItem) : Prop :=
  ∀ tb, t.apis = some tb → tb ≠ [] ∧ (∀ e ∈ tb, e.2 ≠ 0) ∧ (tb.map Prod.fst).Nodup ∧
    ((∀ e ∈ tb, e.1 = "*") ∨ (∀ e ∈ tb, e.1 ≠ "*"))

/-- The kind tag is one of the five the tokenizer produces. -/
def validKind (k : Nat) : Prop :=
  k = slashType ∨ k = numberType ∨ k = enumType ∨ k = constType ∨ k = stringType

/-- The segment of the node has one of the five kind tags. -/
def routeItem.ValidKind (t : routeItem) : Prop := validKind t.node.nt

/-- The tokenized pattern of the call holds only segments of the five kinds. -/
def API.validKinds (api : API) : Prop :=
  ∀ p, api.URLPattern = Except.ok p → ∀ n ∈ p, validKind n.nt

/-- Every identifier in the method table of the node, when present, is zero. -/
def routeItem.ZeroTable (t : routeItem) : Prop :=
  ∀ tb, t.apis = some tb → ∀ e ∈ tb, e.2 = 0

/-- Two segments that are not StructuralEquals: their kinds differ, or both are `Const`
with different literals. -/
def node.Distinct (a b : node) : Prop :=
  a.nt ≠ b.nt ∨ (a.nt = constType ∧ b.nt = constType ∧ a.value ≠ b.value)

/-- No two children of the node are StructuralEquals, and no child is a `Slash`. -/
def routeItem.DistinctChildren (t : routeItem) : Prop :=
  t.children.Pairwise (fun a b => node.Distinct a.node b.node) ∧
    ∀ c ∈ t.children, c.node.nt ≠ slashType

/-- The tokenized pattern of the call begins with a `Slash` segment. -/
def API.leadingSlash (api : API) : Prop :=
  ∀ p, api.URLPattern = Except.ok p → ∃ a t, p = a :: t ∧ a.nt = slashType

/-- The leading `Slash` segment of a tokenized pattern or request. -/
def slashSeg : node :=
  ⟨slashType, [], false, []⟩

/-- A `Const` segment: the literal `s`, binding no parameter. -/
def constSeg (s : String) : node :=
  ⟨constType, StringToSlice s, false, []⟩

/-- A `String` placeholder binding the parameter `name`. -/
def stringSeg (name : String) : node :=
  ⟨stringType, [], true, StringToSlice name⟩

/-- A `Number` placeholder binding the parameter `name`. -/
def numberSeg (name : String) : node :=
  ⟨numberType, [], true, StringToSlice name⟩

/-- An `Enum` segment with the pipe-delimited alternatives `alts`, binding no
parameter. -/
def enumSeg (alts : String) : node :=
  ⟨enumType, StringToSlice alts, false, []⟩

/-! ## Properties -/

@[simp] theorem routeItem.node_mk (n : route.node) (cs : List routeItem)
    (a : Option (List (String × Nat))) : (routeItem.mk n cs a).node = n := rfl

@[simp] theorem routeItem.children_mk (n : route.node) (cs : List routeItem)
    (a : Option (List (String × Nat))) : (routeItem.mk n cs a).children = cs := rfl

@[simp] theorem routeItem.apis_mk (n : route.node) (cs : List routeItem)
    (a : Option (List (String × Nat))) : (routeItem.mk n cs a).apis = a := rfl

/-- Sorting a one-element slice leaves it as it is. -/
theorem sortSlice_singleton (E : Env) (x : routeItem) : E.sortSlice [x] = [x] :=
  List.perm_singleton.mp (E.sortSlice_perm [x])

/-- A sorted rearrangement of two items of different kind tags is the lower tag first. -/
theorem sorted_pair_unique (a b : routeItem) (h : a.node.nt < b.node.nt)
    (l : List routeItem) (hp : l.Perm [a, b])
    (hs : l.Pairwise (fun x y => x.node.nt ≤ y.node.nt)) : l = [a, b] := by
  have hl := hp.length_eq
  match l, hl with
  | [x, y], _ =>
    have hx : x ∈ [a, b] := hp.subset (by simp)
    have hy : y ∈ [a, b] := hp.subset (by simp)
    have hxy : x.node.nt ≤ y.node.nt := by simpa using hs
    have ha : a ∈ [x, y] := hp.symm.subset (by simp)
    have hb : b ∈ [x, y] := hp.symm.subset (by simp)
    simp only [List.mem_cons, List.mem_singleton, List.not_mem_nil, or_false] at hx hy ha hb
    rcases hx with rfl | rfl
    · rcases hy with rfl | rfl
      · rcases hb with rfl | rfl <;> exact absurd h (lt_irrefl _)
      · rfl
    · rcases hy with rfl | rfl
      · omega
      · rcases ha with rfl | rfl <;> exact absurd h (lt_irrefl _)

/-- Sorting two children of different kind tags, appended in either order. -/
theorem sortSlice_pair (E : Env) (a b : routeItem) (h : a.node.nt < b.node.nt) :
    E.sortSlice [a, b] = [a, b] ∧ E.sortSlice [b, a] = [a, b] :=
  ⟨sorted_pair_unique a b h _ (E.sortSlice_perm _) (E.sortSlice_sorted _),
    sorted_pair_unique a b h _ ((E.sortSlice_perm _).trans (List.Perm.swap _ _ _))
      (E.sortSlice_sorted _)⟩

/-- C1, on the code: a pattern of two byte-identical literals, `[Slash, Const c, Const c]`,
is added to the empty route without error, and a lookup of the same segment sequence
under the same method then reports not found: the walk of `Find` tests the current
node before its children, so the second segment is taken by the first literal's node,
which carries no method table. -/
theorem Add_then_Find_repeated_literal (E : Env) (sv c a1 a2 sa : Bytes) (sh h1 h2 : Bool)
    (m : String) (id seed : Nat) {σ : Type} (paramsFunc : Option (Bytes → Bytes → σ → σ))
    (s : σ) :
    ∃ r, Add E NewRoute ⟨id, Except.ok [⟨slashType, sv, sh, sa⟩, ⟨constType, c, h1, a1⟩,
          ⟨constType, c, h2, a2⟩], m⟩ seed = some (r, none) ∧
      (Find E r (Except.ok [⟨slashType, sv, sh, sa⟩, ⟨constType, c, h1, a1⟩,
          ⟨constType, c, h2, a2⟩]) m paramsFunc s).map Prod.fst = some (0, false) := by
  have hadd : Add E NewRoute ⟨id, Except.ok [⟨slashType, sv, sh, sa⟩,
      ⟨constType, c, h1, a1⟩, ⟨constType, c, h2, a2⟩], m⟩ seed =
      some (⟨routeItem.mk ⟨slashType, [], false, []⟩
        [routeItem.mk ⟨constType, c, h1, a1⟩
          [routeItem.mk ⟨constType, c, h2, a2⟩ [] (some [(m, id)])] none] none⟩, none) := by
    simp [Add, NewRoute, removeSlash, removeSlashFrom, addLoop, routeItem.matches,
      scanChildren, routeItem.updateAt, routeItem.addChildren, routeItem.setChildren,
      routeItem.setApis, sortSlice_singleton, mapSet]
  refine ⟨_, hadd, ?_⟩
  simp [Find, findLoop, routeItem.urlMatches, findResult, removeSlash, removeSlashFrom,
    scanChildren]

/-- C2: a literal is not shadowed by a catch-all. Pattern A is `[Slash, Const u, Const c]`
and pattern B is `[Slash, Const u, String]`, with `c` not byte-identical to `u` and `u`
not the match-all wildcard; under the rank `Const < String` of the kind tags, adding A
with `idA` and B with `idB` under one method to the empty route, in either order,
succeeds both times, and a lookup of `[Slash, u, c]` under that method returns
`(idA, true)`, which is not `(idB, true)` when the identifiers differ. -/
theorem Find_literal_before_catchAll (E : Env) (sA uA cA sB uB pB sq uq cq : node)
    (m : String) (idA idB seed1 seed2 : Nat) {σ : Type}
    (paramsFunc : Option (Bytes → Bytes → σ → σ)) (s : σ)
    (hsA : sA.nt = slashType) (huA : uA.nt = constType) (hcA : cA.nt = constType)
    (hsB : sB.nt = slashType) (huB : uB.nt = constType) (hpB : pB.nt = stringType)
    (hu : uB.value = uA.value) (hne : cA.value ≠ uA.value) (hwu : uA.value ≠ E.matchAll)
    (hAB : idA ≠ idB)
    (hsq : sq.nt = slashType) (huq : uq.nt ≠ slashType) (hcq : cq.nt ≠ slashType)
    (huv : uq.value = uA.value) (hcv : cq.value = cA.value) :
    (∃ r1 r2, Add E NewRoute ⟨idA, Except.ok [sA, uA, cA], m⟩ seed1 = some (r1, none) ∧
        Add E r1 ⟨idB, Except.ok [sB, uB, pB], m⟩ seed2 = some (r2, none) ∧
        (Find E r2 (Except.ok [sq, uq, cq]) m paramsFunc s).map Prod.fst
          = some (idA, true)) ∧
    (∃ r1 r2, Add E NewRoute ⟨idB, Except.ok [sB, uB, pB], m⟩ seed1 = some (r1, none) ∧
        Add E r1 ⟨idA, Except.ok [sA, uA, cA], m⟩ seed2 = some (r2, none) ∧
        (Find E r2 (Except.ok [sq, uq, cq]) m paramsFunc s).map Prod.fst
          = some (idA, true)) ∧
    (idA, true) ≠ (idB, true) := by
  have hlt : (routeItem.mk cA [] (some [(m, idA)])).node.nt
      < (routeItem.mk pB [] (some [(m, idB)])).node.nt := by
    simp [hcA, hpB]
  have hb : (uA.value == E.matchAll) = false := by simpa using hwu
  have hne2 : uA.value ≠ cA.value := Ne.symm hne
  have hfind : (Find E ⟨routeItem.mk ⟨slashType, [], false, []⟩
      [routeItem.mk uA [routeItem.mk cA [] (some [(m, idA)]),
        routeItem.mk pB [] (some [(m, idB)])] none] none⟩
      (Except.ok [sq, uq, cq]) m paramsFunc s).map Prod.fst = some (idA, true) := by
    simp [Find, hb, hne2, List.lookup, findLoop, routeItem.urlMatches, findResult,
      removeSlash, removeSlashFrom, scanChildren, hsq, huq, hcq, huv, hcv, huA, hcA,
      node.isMatchAllConstString]
  have hfind2 : (Find E ⟨routeItem.mk ⟨slashType, [], false, []⟩
      [routeItem.mk uB [routeItem.mk cA [] (some [(m, idA)]),
        routeItem.mk pB [] (some [(m, idB)])] none] none⟩
      (Except.ok [sq, uq, cq]) m paramsFunc s).map Prod.fst = some (idA, true) := by
    simp [Find, hb, hne2, List.lookup, findLoop, routeItem.urlMatches, findResult,
      removeSlash, removeSlashFrom, scanChildren, hsq, huq, hcq, huv, hcv, huB, hcA, hu,
      node.isMatchAllConstString]
  have hA1 : Add E NewRoute ⟨idA, Except.ok [sA, uA, cA], m⟩ seed1 =
      some (⟨routeItem.mk ⟨slashType, [], false, []⟩
        [routeItem.mk uA [routeItem.mk cA [] (some [(m, idA)])] none] none⟩, none) := by
    simp [Add, NewRoute, removeSlash, removeSlashFrom, addLoop, routeItem.matches,
      scanChildren, routeItem.updateAt, routeItem.addChildren, routeItem.setChildren,
      routeItem.setApis, sortSlice_singleton, mapSet, hsA, huA, hcA]
  have hB2 : Add E ⟨routeItem.mk ⟨slashType, [], false, []⟩
      [routeItem.mk uA [routeItem.mk cA [] (some [(m, idA)])] none] none⟩
      ⟨idB, Except.ok [sB, uB, pB], m⟩ seed2 =
      some (⟨routeItem.mk ⟨slashType, [], false, []⟩
        [routeItem.mk uA [routeItem.mk cA [] (some [(m, idA)]),
          routeItem.mk pB [] (some [(m, idB)])] none] none⟩, none) := by
    simp [Add, NewRoute, removeSlash, removeSlashFrom, addLoop, routeItem.matches,
      scanChildren, routeItem.updateAt, routeItem.addChildren, routeItem.setChildren,
      modifyNth, routeItem.setApis, sortSlice_singleton, mapSet, hsA, huA, hcA, hsB, huB,
      hpB, hu, (sortSlice_pair E _ _ hlt).1]
  have hB1 : Add E NewRoute ⟨idB, Except.ok [sB, uB, pB], m⟩ seed1 =
      some (⟨routeItem.mk ⟨slashType, [], false, []⟩
        [routeItem.mk uB [routeItem.mk pB [] (some [(m, idB)])] none] none⟩, none) := by
    simp [Add, NewRoute, removeSlash, removeSlashFrom, addLoop, routeItem.matches,
      scanChildren, routeItem.updateAt, routeItem.addChildren, routeItem.setChildren,
      routeItem.setApis, sortSlice_singleton, mapSet, hsB, huB, hpB]
  have hA2 : Add E ⟨routeItem.mk ⟨slashType, [], false, []⟩
      [routeItem.mk uB [routeItem.mk pB [] (some [(m, idB)])] none] none⟩
      ⟨idA, Except.ok [sA, uA, cA], m⟩ seed2 =
      some (⟨routeItem.mk ⟨slashType, [], false, []⟩
        [routeItem.mk uB [routeItem.mk cA [] (some [(m, idA)]),
          routeItem.mk pB [] (some [(m, idB)])] none] none⟩, none) := by
    simp [Add, NewRoute, removeSlash, removeSlashFrom, addLoop, routeItem.matches,
      scanChildren, routeItem.updateAt, routeItem.addChildren, routeItem.setChildren,
      modifyNth, routeItem.setApis, sortSlice_singleton, mapSet, hsA, huA, hcA, hsB, huB,
      hpB, hu, hne2, (sortSlice_pair E _ _ hlt).2]
  exact ⟨⟨_, _, hA1, hB2, hfind⟩, ⟨_, _, hB1, hA2, hfind2⟩,
    fun h => hAB (congrArg Prod.fst h)⟩

/-- C2 at `/users/me` (id 1) and `/users/:id` (id 2) under `GET`: in either order of
registration, `/users/me` resolves to 1. -/
theorem Find_literal_before_catchAll_users_me :
    (∃ r1 r2, Add goEnv NewRoute ⟨1, Except.ok [slashSeg, constSeg "users", constSeg "me"],
          "GET"⟩ 0 = some (r1, none) ∧
        Add goEnv r1 ⟨2, Except.ok [slashSeg, constSeg "users", stringSeg "id"], "GET"⟩ 0
          = some (r2, none) ∧
        (Find goEnv r2 (Except.ok [slashSeg, constSeg "users", constSeg "me"]) "GET"
          recordParams []).map Prod.fst = some (1, true)) ∧
    (∃ r1 r2, Add goEnv NewRoute ⟨2, Except.ok [slashSeg, constSeg "users", stringSeg "id"],
          "GET"⟩ 0 = some (r1, none) ∧
        Add goEnv r1 ⟨1, Except.ok [slashSeg, constSeg "users", constSeg "me"], "GET"⟩ 0
          = some (r2, none) ∧
        (Find goEnv r2 (Except.ok [slashSeg, constSeg "users", constSeg "me"]) "GET"
          recordParams []).map Prod.fst = some (1, true)) ∧
    ((1 : Nat), true) ≠ (2, true) :=
  Find_literal_before_catchAll goEnv slashSeg (constSeg "users") (constSeg "me") slashSeg
    (constSeg "users") (stringSeg "id") slashSeg (constSeg "users") (constSeg "me") "GET" 1 2
    0 0 recordParams [] rfl rfl rfl rfl rfl rfl rfl (by decide) (by decide) (by decide) rfl
    (by decide) (by decide) rfl rfl

/-- C3, on the code: the pattern `[Slash, Const c, Const c]` is added twice in a row to
the empty route under one method, and both calls return nil. The second walk stays on
the first literal's node for the second segment (the current node is tested before its
children), ends there with the whole pattern consumed, and registers on that node,
whose method table is still absent; the first registration sits one level below. -/
theorem Add_twice_repeated_literal (E : Env) (sv c a1 a2 sa : Bytes) (sh h1 h2 : Bool)
    (m : String) (id1 id2 seed1 seed2 : Nat) :
    ∃ r1 r2, Add E NewRoute ⟨id1, Except.ok [⟨slashType, sv, sh, sa⟩, ⟨constType, c, h1, a1⟩,
          ⟨constType, c, h2, a2⟩], m⟩ seed1 = some (r1, none) ∧
      Add E r1 ⟨id2, Except.ok [⟨slashType, sv, sh, sa⟩, ⟨constType, c, h1, a1⟩,
          ⟨constType, c, h2, a2⟩], m⟩ seed2 = some (r2, none) := by
  have hadd1 : Add E NewRoute ⟨id1, Except.ok [⟨slashType, sv, sh, sa⟩,
      ⟨constType, c, h1, a1⟩, ⟨constType, c, h2, a2⟩], m⟩ seed1 =
      some (⟨routeItem.mk ⟨slashType, [], false, []⟩
        [routeItem.mk ⟨constType, c, h1, a1⟩
          [routeItem.mk ⟨constType, c, h2, a2⟩ [] (some [(m, id1)])] none] none⟩, none) := by
    simp [Add, NewRoute, removeSlash, removeSlashFrom, addLoop, routeItem.matches,
      scanChildren, routeItem.updateAt, routeItem.addChildren, routeItem.setChildren,
      routeItem.setApis, sortSlice_singleton, mapSet]
  have hadd2 : Add E ⟨routeItem.mk ⟨slashType, [], false, []⟩
        [routeItem.mk ⟨constType, c, h1, a1⟩
          [routeItem.mk ⟨constType, c, h2, a2⟩ [] (some [(m, id1)])] none] none⟩
      ⟨id2, Except.ok [⟨slashType, sv, sh, sa⟩,
      ⟨constType, c, h1, a1⟩, ⟨constType, c, h2, a2⟩], m⟩ seed2 =
      some (⟨routeItem.mk ⟨slashType, [], false, []⟩
        [routeItem.mk ⟨constType, c, h1, a1⟩
          [routeItem.mk ⟨constType, c, h2, a2⟩ [] (some [(m, id1)])]
          (some [(m, id2)])] none⟩, none) := by
    simp [Add, NewRoute, removeSlash, removeSlashFrom, addLoop, routeItem.matches,
      scanChildren, routeItem.updateAt, routeItem.addChildren, routeItem.setChildren,
      modifyNth, routeItem.setApis, sortSlice_singleton, mapSet]
  exact ⟨_, _, hadd1, hadd2⟩

theorem lookup_isSome_iff (t : List (String × Nat)) (k : String) :
    (t.lookup k).isSome = true ↔ k ∈ t.map Prod.fst := by
  induction t with
  | nil => simp [List.lookup]
  | cons e t ih =>
    obtain ⟨k1, v1⟩ := e
    by_cases h : k = k1
    · subst h; simp [List.lookup]
    · have hb : (k == k1) = false := by simpa using h
      simp [List.lookup, hb, ih, h]

theorem lookup_mem (t : List (String × Nat)) (k : String) (v : Nat)
    (h : t.lookup k = some v) : (k, v) ∈ t := by
  induction t with
  | nil => simp [List.lookup] at h
  | cons e t ih =>
    obtain ⟨k1, v1⟩ := e
    by_cases hk : k = k1
    · subst hk; simp [List.lookup] at h; simp [h]
    · have hb : (k == k1) = false := by simpa using hk
      simp [List.lookup, hb] at h
      exact List.mem_cons_of_mem _ (ih h)

theorem mapIndex_ne_zero_iff (t : List (String × Nat)) (hnz : ∀ e ∈ t, e.2 ≠ 0) (k : String) :
    mapIndex t k ≠ 0 ↔ k ∈ t.map Prod.fst := by
  rw [← lookup_isSome_iff]
  unfold mapIndex
  cases h : t.lookup k with
  | none => simp
  | some v => simpa using hnz _ (lookup_mem t k v h)

theorem mapRangeFirst_mem (t : List (String × Nat)) (seed : Nat) (h : t ≠ []) :
    mapRangeFirst t seed ∈ t.map Prod.snd := by
  have hlen : 0 < t.length := List.length_pos.mpr h
  have hlt : seed % t.length < t.length := Nat.mod_lt _ hlen
  unfold mapRangeFirst
  rw [List.getElem?_eq_getElem hlt]
  exact List.mem_map_of_mem _ (List.getElem_mem _)

theorem mapSet_of_not_mem (t : List (String × Nat)) (k : String) (v : Nat)
    (h : k ∉ t.map Prod.fst) : mapSet t k v = t ++ [(k, v)] := by
  have : (t.lookup k).isSome = false := by
    rw [← Bool.not_eq_true, lookup_isSome_iff]; exact h
  simp [mapSet, this]

theorem nodeAt_append (p : List Nat) (i : Nat) (t : routeItem) :
    routeItem.nodeAt (p ++ [i]) t = (routeItem.nodeAt p t).bind (fun x => x.children[i]?) := by
  induction p generalizing t with
  | nil =>
    simp only [List.nil_append, routeItem.nodeAt, Option.some_bind]
    cases t.children[i]? <;> rfl
  | cons j p ih =>
    simp only [List.cons_append, routeItem.nodeAt]
    cases t.children[j]? with
    | none => rfl
    | some c => exact ih c

theorem scanChildren_get (test : routeItem → Option Bool) (k : Nat) (l : List routeItem)
    (i : Nat) (item : routeItem) (h : scanChildren test k l = some (some (i, item))) :
    k ≤ i ∧ l[i - k]? = some item ∧ test item = some true := by
  induction l generalizing k with
  | nil => simp [scanChildren] at h
  | cons a l ih =>
    unfold scanChildren at h
    cases ha : test a with
    | none => simp [ha] at h
    | some b =>
      cases b with
      | true =>
        simp [ha] at h
        obtain ⟨rfl, rfl⟩ := h
        simp [ha]
      | false =>
        simp only [ha] at h
        obtain ⟨h1, h2, h3⟩ := ih (k + 1) h
        refine ⟨by omega, ?_, h3⟩
        have : i - k = (i - (k + 1)) + 1 := by omega
        rw [this]
        simpa using h2

theorem addLoop_pointer (root : routeItem) (nodes : List node) (parent : Pointer)
    (idx matchedIdx : Nat) (res : Pointer) (mi : Nat)
    (hp : root.nodeAt parent.path = some parent.item)
    (h : addLoop parent idx matchedIdx nodes = some (res, mi)) :
    root.nodeAt res.path = some res.item := by
  induction nodes generalizing parent idx matchedIdx with
  | nil =>
    simp [addLoop] at h
    obtain ⟨rfl, _⟩ := h
    exact hp
  | cons n rest ih =>
    unfold addLoop at h
    cases hm : parent.item.matches n with
    | none => simp [hm] at h
    | some b =>
      cases b with
      | true =>
        simp only [hm] at h
        exact ih parent _ _ hp h
      | false =>
        simp only [hm] at h
        cases hs : scanChildren (fun item => item.matches n) 0 parent.item.children with
        | none => simp [hs] at h
        | some o =>
          cases o with
          | none =>
            simp [hs] at h
            obtain ⟨rfl, _⟩ := h
            exact hp
          | some ic =>
            obtain ⟨i, c⟩ := ic
            simp only [hs] at h
            refine ih ⟨parent.path ++ [i], c⟩ _ _ ?_ h
            have hg := (scanChildren_get _ 0 _ i c hs).2.1
            simp only [Nat.sub_zero] at hg
            simp [nodeAt_append, hp, hg]

theorem lookup_eq_none_iff (t : List (String × Nat)) (k : String) :
    t.lookup k = none ↔ k ∉ t.map Prod.fst := by
  rw [← lookup_isSome_iff]
  cases t.lookup k <;> simp

theorem lookup_eq_some_mapIndex (t : List (String × Nat)) (k : String)
    (h : k ∈ t.map Prod.fst) : t.lookup k = some (mapIndex t k) := by
  have := (lookup_isSome_iff t k).mpr h
  unfold mapIndex
  cases hl : t.lookup k with
  | none => simp [hl] at this
  | some v => rfl

/-- Method resolution on the terminal node. When the walk of `Find` ends on `target`
with the whole request consumed (`matchedIdx == len(nodes)-1`), `Find` returns
`(t[method], true)` if the table `t` of `target` has the key `method`, otherwise
`(t["*"], true)` if it has the key `*`, otherwise `(0, false)`, also when `target` has
no table; a node holding only a `*` entry with id `w` then answers `(w, true)` to every
method. -/
theorem Find_terminal_method_resolution (E : Env) (r : Route) (q : List node)
    (method : String) {σ : Type} (paramsFunc : Option (Bytes → Bytes → σ → σ)) (s s1 : σ)
    (target : routeItem) (matchedIdx : Nat)
    (hwalk : findLoop E paramsFunc r.root 0 0 s (removeSlash q) = some (target, matchedIdx, s1))
    (hfull : matchedIdx + 1 = (removeSlash q).length) :
    (∀ t, target.apis = some t → method ∈ t.map Prod.fst →
      Find E r (Except.ok q) method paramsFunc s = some ((mapIndex t method, true), s1)) ∧
    (∀ t, target.apis = some t → method ∉ t.map Prod.fst → "*" ∈ t.map Prod.fst →
      Find E r (Except.ok q) method paramsFunc s = some ((mapIndex t "*", true), s1)) ∧
    (∀ t, target.apis = some t → method ∉ t.map Prod.fst → "*" ∉ t.map Prod.fst →
      Find E r (Except.ok q) method paramsFunc s = some ((0, false), s1)) ∧
    (target.apis = none →
      Find E r (Except.ok q) method paramsFunc s = some ((0, false), s1)) ∧
    (∀ w, target.apis = some [("*", w)] →
      Find E r (Except.ok q) method paramsFunc s = some ((w, true), s1)) := by
  have hF : Find E r (Except.ok q) method paramsFunc s =
      some (findResult target matchedIdx (removeSlash q).length method, s1) := by
    simp [Find, hwalk]
  refine ⟨?_, ?_, ?_, ?_, ?_⟩
  · intro t ht hm
    simp [hF, findResult, hfull, ht, lookup_eq_some_mapIndex t method hm]
  · intro t ht hm hs
    simp [hF, findResult, hfull, ht, lookup_eq_some_mapIndex t "*" hs,
      (lookup_eq_none_iff t method).mpr hm]
  · intro t ht hm hs
    simp [hF, findResult, hfull, ht, (lookup_eq_none_iff t "*").mpr hs,
      (lookup_eq_none_iff t method).mpr hm]
  · intro ht
    simp [hF, findResult, hfull, ht]
  · intro w ht
    by_cases hm : method = "*"
    · subst hm
      simp [hF, findResult, hfull, ht, List.lookup]
    · have hb : (method == "*") = false := by simpa using hm
      simp [hF, findResult, hfull, ht, List.lookup, hb]

/-- Method resolution at the pattern `/a` registered under `*` with id 7 and looked up
under `POST`: the lookup returns the wildcard registration. -/
theorem Find_terminal_method_resolution_wildcard_POST :
    ∃ r, Add goEnv NewRoute ⟨7, Except.ok [slashSeg, constSeg "a"], "*"⟩ 0 = some (r, none) ∧
      Find goEnv r (Except.ok [slashSeg, constSeg "a"]) "POST" recordParams []
        = some ((7, true), []) :=
  ⟨⟨routeItem.mk slashSeg [routeItem.mk (constSeg "a") [] (some [("*", 7)])] none⟩, rfl,
    (Find_terminal_method_resolution goEnv
      ⟨routeItem.mk slashSeg [routeItem.mk (constSeg "a") [] (some [("*", 7)])] none⟩
      [slashSeg, constSeg "a"] "POST" recordParams [] []
      (routeItem.mk (constSeg "a") [] (some [("*", 7)])) 1 rfl rfl).2.2.2.2 7 rfl⟩

/-- C6, on the code: after `/a/b` is added under `GET` with id 1 to the empty route, the
lookup of `/a/a/b` under `GET` returns `(1, true)`, although the one registered pattern
has three segments and the request has four: the repeated `a` is taken by the node
`a` the walk already stands on. -/
theorem Find_longer_request_found :
    ∃ r, Add goEnv NewRoute ⟨1, Except.ok [slashSeg, constSeg "a", constSeg "b"], "GET"⟩ 0
        = some (r, none) ∧
      Find goEnv r (Except.ok [slashSeg, constSeg "a", constSeg "a", constSeg "b"]) "GET"
        recordParams [] = some ((1, true), []) :=
  ⟨⟨routeItem.mk slashSeg [routeItem.mk (constSeg "a")
      [routeItem.mk (constSeg "b") [] (some [("GET", 1)])] none] none⟩, rfl, rfl⟩

/-- C7, on the code: after `/shop/:shopId/item/:itemId` (two `String` placeholders) is
added under `GET` with id 1 to the empty route, the lookup of `/shop/9/item/7` returns
`(0, false)` and the sink receives `("shopId","9")`, `("shopId","item")`,
`("shopId","7")`: once the walk stands on the first placeholder, that node accepts
every later segment itself, so the walk never descends to `item` and `:itemId`. -/
theorem Find_two_string_placeholders :
    ∃ r, Add goEnv NewRoute ⟨1, Except.ok [slashSeg, constSeg "shop", stringSeg "shopId",
        constSeg "item", stringSeg "itemId"], "GET"⟩ 0 = some (r, none) ∧
      Find goEnv r (Except.ok [slashSeg, constSeg "shop", constSeg "9", constSeg "item",
        constSeg "7"]) "GET" recordParams [] =
      some ((0, false), [(StringToSlice "shopId", StringToSlice "9"),
        (StringToSlice "shopId", StringToSlice "item"),
        (StringToSlice "shopId", StringToSlice "7")]) :=
  ⟨⟨routeItem.mk slashSeg [routeItem.mk (constSeg "shop")
      [routeItem.mk (stringSeg "shopId") [routeItem.mk (constSeg "item")
        [routeItem.mk (stringSeg "itemId") [] (some [("GET", 1)])] none] none] none] none⟩,
    rfl, rfl⟩

/-- C9: enum compatibility. After only the pattern `[Slash, Const c, Enum A]` is added
under a method to the empty route, with `c` not the match-all wildcard, the lookup of
`[Slash, c, v]` under that method, for `v` not byte-identical to `c`, returns
`(id, true)` if `v` is one of the alternatives of the `Enum` segment and `(0, false)`
otherwise. -/
theorem Find_enum_alternatives (E : Env) (sP kP eP sq kq vq : node) (m : String)
    (id seed : Nat) {σ : Type} (paramsFunc : Option (Bytes → Bytes → σ → σ)) (s : σ)
    (hsP : sP.nt = slashType) (hkP : kP.nt = constType) (heP : eP.nt = enumType)
    (hw : kP.value ≠ E.matchAll)
    (hsq : sq.nt = slashType) (hkq : kq.nt ≠ slashType) (hvq : vq.nt ≠ slashType)
    (hkv : kq.value = kP.value) (hne : vq.value ≠ kP.value) :
    ∃ r, Add E NewRoute ⟨id, Except.ok [sP, kP, eP], m⟩ seed = some (r, none) ∧
      (Find E r (Except.ok [sq, kq, vq]) m paramsFunc s).map Prod.fst =
        some (if vq.value ∈ eP.enumAlternatives then (id, true) else (0, false)) := by
  have hadd : Add E NewRoute ⟨id, Except.ok [sP, kP, eP], m⟩ seed =
      some (⟨routeItem.mk ⟨slashType, [], false, []⟩
        [routeItem.mk kP [routeItem.mk eP [] (some [(m, id)])] none] none⟩, none) := by
    simp [Add, NewRoute, removeSlash, removeSlashFrom, addLoop, routeItem.matches,
      scanChildren, routeItem.updateAt, routeItem.addChildren, routeItem.setChildren,
      routeItem.setApis, sortSlice_singleton, mapSet, hsP, hkP, heP]
  have hb : (kP.value == E.matchAll) = false := by simpa using hw
  have hne2 : kP.value ≠ vq.value := Ne.symm hne
  refine ⟨_, hadd, ?_⟩
  by_cases hin : vq.value ∈ eP.enumAlternatives
  · simp [Find, hb, hne2, List.lookup, findLoop, routeItem.urlMatches, findResult,
      removeSlash, removeSlashFrom, scanChildren, hsq, hkq, hvq, hkv, hkP, heP,
      node.isMatchAllConstString, node.inEnumValue, hin]
  · simp [Find, hb, hne2, List.lookup, findLoop, routeItem.urlMatches, findResult,
      removeSlash, removeSlashFrom, scanChildren, hsq, hkq, hvq, hkv, hkP, heP,
      node.isMatchAllConstString, node.inEnumValue, hin]

/-- C9 at `/color/enum:red|green|blue`: `/color/green` is accepted and `/color/yellow`
is rejected. -/
theorem Find_enum_alternatives_color :
    (∃ r, Add goEnv NewRoute ⟨1, Except.ok [slashSeg, constSeg "color",
          enumSeg "red|green|blue"], "GET"⟩ 0 = some (r, none) ∧
      (Find goEnv r (Except.ok [slashSeg, constSeg "color", constSeg "green"]) "GET"
        recordParams []).map Prod.fst = some (1, true)) ∧
    (∃ r, Add goEnv NewRoute ⟨1, Except.ok [slashSeg, constSeg "color",
          enumSeg "red|green|blue"], "GET"⟩ 0 = some (r, none) ∧
      (Find goEnv r (Except.ok [slashSeg, constSeg "color", constSeg "yellow"]) "GET"
        recordParams []).map Prod.fst = some (0, false)) :=
  ⟨Find_enum_alternatives goEnv slashSeg (constSeg "color") (enumSeg "red|green|blue")
      slashSeg (constSeg "color") (constSeg "green") "GET" 1 0 recordParams []
      rfl rfl rfl (by decide) rfl (by decide) (by decide) rfl (by decide),
    Find_enum_alternatives goEnv slashSeg (constSeg "color") (enumSeg "red|green|blue")
      slashSeg (constSeg "color") (constSeg "yellow") "GET" 1 0 recordParams []
      rfl rfl rfl (by decide) rfl (by decide) (by decide) rfl (by decide)⟩

theorem scanChildren_none (test : routeItem → Option Bool) (k : Nat) (l : List routeItem)
    (h : scanChildren test k l = some none) : ∀ c ∈ l, test c = some false := by
  induction l generalizing k with
  | nil => simp
  | cons a l ih =>
    unfold scanChildren at h
    cases ha : test a with
    | none => simp [ha] at h
    | some b =>
      cases b with
      | true => simp [ha] at h
      | false =>
        simp only [ha] at h
        intro c hc
        rcases List.mem_cons.mp hc with rfl | hc
        · exact ha
        · exact ih _ h c hc

theorem findLoop_state {σ : Type} (E : Env) (paramsFunc : Option (Bytes → Bytes → σ → σ))
    (nodes : List node) (target : routeItem) (idx matchedIdx : Nat) (s : σ) :
    (findLoop E paramsFunc target idx matchedIdx s nodes).map (fun x => x.2.2) =
      (matchedNodes E target nodes).map
        (fun ms => (ms.zip nodes).foldl (fun st p => callParams paramsFunc p.1 p.2 st) s) := by
  induction nodes generalizing target idx matchedIdx s with
  | nil => simp [findLoop, matchedNodes]
  | cons n rest ih =>
    unfold findLoop matchedNodes
    cases hm : target.urlMatches E n with
    | none => simp
    | some b =>
      cases b with
      | true =>
        simp only [ih, Option.map_map]
        congr 1
      | false =>
        simp only
        cases hs : scanChildren (fun item => item.urlMatches E n) 0 target.children with
        | none => simp
        | some o =>
          cases o with
          | none => simp
          | some ic =>
            obtain ⟨i, c⟩ := ic
            simp only [ih, Option.map_map]
            congr 1

theorem foldl_record (l : List (routeItem × node)) (s : List (Bytes × Bytes)) :
    l.foldl (fun st p => callParams recordParams p.1 p.2 st) s =
      s ++ l.filterMap
        (fun p => if p.1.node.hasArg then some (p.1.node.argName, p.2.value) else none) := by
  induction l generalizing s with
  | nil => simp
  | cons p l ih =>
    simp only [List.foldl_cons, ih, List.filterMap_cons]
    cases hp : p.1.node.hasArg <;> simp [callParams, recordParams, hp]

theorem matchedNodes_spec (E : Env) (nodes : List node) (cur : routeItem)
    (ms : List routeItem) (h : matchedNodes E cur nodes = some ms) :
    ms.length ≤ nodes.length ∧
    (∀ p ∈ ms.zip nodes, p.1.urlMatches E p.2 = some true) ∧
    List.Chain (fun a b => b = a ∨ b ∈ a.children) cur ms ∧
    (∀ n, nodes[ms.length]? = some n →
      (ms.getLast?.getD cur).urlMatches E n = some false ∧
      ∀ c ∈ (ms.getLast?.getD cur).children, c.urlMatches E n = some false) := by
  induction nodes generalizing cur ms with
  | nil =>
    simp [matchedNodes] at h
    subst h
    simp
  | cons n rest ih =>
    unfold matchedNodes at h
    cases hm : cur.urlMatches E n with
    | none => simp [hm] at h
    | some b =>
      cases b with
      | true =>
        simp only [hm, Option.map_eq_some'] at h
        obtain ⟨ms1, h1, rfl⟩ := h
        obtain ⟨a1, a2, a3, a4⟩ := ih cur ms1 h1
        refine ⟨by simp; omega, ?_, List.Chain.cons (Or.inl rfl) a3, ?_⟩
        · intro p hp
          simp only [List.zip_cons_cons, List.mem_cons] at hp
          rcases hp with rfl | hp
          · exact hm
          · exact a2 p hp
        · intro k hk
          simp only [List.length_cons, List.getElem?_cons_succ] at hk
          have := a4 k hk
          cases ms1 with
          | nil => simpa using this
          | cons x xs => simpa [List.getLast?_cons_cons] using this
      | false =>
        simp only [hm] at h
        cases hs : scanChildren (fun item => item.urlMatches E n) 0 cur.children with
        | none => simp [hs] at h
        | some o =>
          cases o with
          | none =>
            simp [hs] at h
            subst h
            simp
            exact ⟨hm, scanChildren_none _ _ _ hs⟩
          | some ic =>
            obtain ⟨i, c⟩ := ic
            simp only [hs, Option.map_eq_some'] at h
            obtain ⟨ms1, h1, rfl⟩ := h
            obtain ⟨a1, a2, a3, a4⟩ := ih c ms1 h1
            obtain ⟨_, g2, g3⟩ := scanChildren_get _ 0 _ i c hs
            refine ⟨by simp; omega, ?_,
              List.Chain.cons (Or.inr (List.getElem?_mem g2)) a3, ?_⟩
            · intro p hp
              simp only [List.zip_cons_cons, List.mem_cons] at hp
              rcases hp with rfl | hp
              · exact g3
              · exact a2 p hp
            · intro k hk
              simp only [List.length_cons, List.getElem?_cons_succ] at hk
              have := a4 k hk
              cases ms1 with
              | nil => simpa using this
              | cons x xs => simpa [List.getLast?_cons_cons] using this

/-- C8: parameter emission. For every route, request, method and sink, the sink state
`Find` leaves is the one obtained by going through the request segments in order and
calling the sink, for each segment that was matched (by the current node or by a child)
by a node with `hasArg`, with that node's `argName` and the segment's literal value:
at most one call per segment, in increasing segment index, none for the segments from
the one where the walk stops. The returned pair plays no part in it, so the calls are
made whether or not the lookup is found. -/
theorem Find_params_once_per_matched_segment (E : Env) (r : Route) (q : List node)
    (method : String) {σ : Type} (paramsFunc : Option (Bytes → Bytes → σ → σ)) (s : σ) :
    (Find E r (Except.ok q) method paramsFunc s).map Prod.snd =
      (matchedNodes E r.root (removeSlash q)).map (fun ms =>
        (ms.zip (removeSlash q)).foldl (fun st p => callParams paramsFunc p.1 p.2 st) s) ∧
    (Find E r (Except.ok q) method recordParams []).map Prod.snd =
      (matchedNodes E r.root (removeSlash q)).map (fun ms => paramsOf ms (removeSlash q)) ∧
    (∀ ms, matchedNodes E r.root (removeSlash q) = some ms →
      ms.length ≤ (removeSlash q).length ∧
      (paramsOf ms (removeSlash q)).length ≤ ms.length ∧
      (∀ p ∈ ms.zip (removeSlash q), p.1.urlMatches E p.2 = some true) ∧
      List.Chain (fun a b => b = a ∨ b ∈ a.children) r.root ms ∧
      (∀ n, (removeSlash q)[ms.length]? = some n →
        (ms.getLast?.getD r.root).urlMatches E n = some false ∧
        ∀ c ∈ (ms.getLast?.getD r.root).children, c.urlMatches E n = some false)) := by
  have hF : ∀ {τ : Type} (pf : Option (Bytes → Bytes → τ → τ)) (s0 : τ),
      (Find E r (Except.ok q) method pf s0).map Prod.snd =
        (findLoop E pf r.root 0 0 s0 (removeSlash q)).map (fun x => x.2.2) := by
    intro τ pf s0
    simp only [Find]
    cases findLoop E pf r.root 0 0 s0 (removeSlash q) <;> rfl
  refine ⟨?_, ?_, ?_⟩
  · rw [hF, findLoop_state]
  · rw [hF, findLoop_state]
    congr 1
    funext ms
    simp [foldl_record, paramsOf]
  · intro ms hms
    obtain ⟨a1, a2, a3, a4⟩ := matchedNodes_spec E _ _ ms hms
    refine ⟨a1, ?_, a2, a3, a4⟩
    have h1 := List.length_filterMap_le
      (fun p : routeItem × node =>
        if p.1.node.hasArg then some (p.1.node.argName, p.2.value) else none)
      (ms.zip (removeSlash q))
    have h2 : (ms.zip (removeSlash q)).length ≤ ms.length := by
      rw [List.length_zip]; exact Nat.min_le_left _ _
    exact le_trans h1 h2

/-- C8 at `/shop/:shopId/item` and the request `/shop/9/item`, which is not found: the
sink has received `("shopId","9")` and `("shopId","item")`. -/
theorem Find_params_once_per_matched_segment_not_found :
    Find goEnv ⟨routeItem.mk slashSeg [routeItem.mk (constSeg "shop")
        [routeItem.mk (stringSeg "shopId") [routeItem.mk (constSeg "item") []
          (some [("GET", 1)])] none] none] none⟩
      (Except.ok [slashSeg, constSeg "shop", constSeg "9", constSeg "item"]) "GET"
      recordParams [] =
      some ((0, false), [(StringToSlice "shopId", StringToSlice "9"),
        (StringToSlice "shopId", StringToSlice "item")]) ∧
    (Find goEnv ⟨routeItem.mk slashSeg [routeItem.mk (constSeg "shop")
        [routeItem.mk (stringSeg "shopId") [routeItem.mk (constSeg "item") []
          (some [("GET", 1)])] none] none] none⟩
      (Except.ok [slashSeg, constSeg "shop", constSeg "9", constSeg "item"]) "GET"
      recordParams []).map Prod.snd =
      some (paramsOf [routeItem.mk slashSeg [routeItem.mk (constSeg "shop")
          [routeItem.mk (stringSeg "shopId") [routeItem.mk (constSeg "item") []
            (some [("GET", 1)])] none] none] none,
        routeItem.mk (constSeg "shop")
          [routeItem.mk (stringSeg "shopId") [routeItem.mk (constSeg "item") []
            (some [("GET", 1)])] none] none,
        routeItem.mk (stringSeg "shopId") [routeItem.mk (constSeg "item") []
            (some [("GET", 1)])] none,
        routeItem.mk (stringSeg "shopId") [routeItem.mk (constSeg "item") []
            (some [("GET", 1)])] none]
        [slashSeg, constSeg "shop", constSeg "9", constSeg "item"]) :=
  ⟨rfl, (Find_params_once_per_matched_segment goEnv _ _ "GET" recordParams []).2.1⟩

theorem routeItem.Every.here {P : routeItem → Prop} {t : routeItem} (h : t.Every P) : P t := by
  cases h with
  | intro _ h1 _ => exact h1

theorem routeItem.Every.child {P : routeItem → Prop} {t : routeItem} (h : t.Every P) :
    ∀ c ∈ t.children, c.Every P := by
  cases h with
  | intro _ _ h2 => exact h2

theorem every_nodeAt {P : routeItem → Prop} (p : List Nat) (t x : routeItem)
    (h : t.Every P) (hx : t.nodeAt p = some x) : P x := by
  induction p generalizing t with
  | nil =>
    simp [routeItem.nodeAt] at hx
    subst hx
    exact h.here
  | cons i p ih =>
    simp only [routeItem.nodeAt] at hx
    cases hc : t.children[i]? with
    | none => simp [hc] at hx
    | some c =>
      simp only [hc, Option.some_bind] at hx
      exact ih c (h.child c (List.getElem?_mem hc)) hx

theorem mem_modifyNth {α : Type} (g : α → α) (i : Nat) (l : List α) (c : α)
    (h : c ∈ modifyNth g i l) : c ∈ l ∨ ∃ c0 ∈ l, c = g c0 := by
  induction l generalizing i with
  | nil => simp [modifyNth] at h
  | cons a l ih =>
    cases i with
    | zero =>
      simp only [modifyNth, List.mem_cons] at h
      rcases h with rfl | h
      · exact Or.inr ⟨a, by simp, rfl⟩
      · exact Or.inl (List.mem_cons_of_mem _ h)
    | succ i =>
      simp only [modifyNth, List.mem_cons] at h
      rcases h with rfl | h
      · exact Or.inl (by simp)
      · rcases ih i h with h1 | ⟨c0, h1, h2⟩
        · exact Or.inl (List.mem_cons_of_mem _ h1)
        · exact Or.inr ⟨c0, List.mem_cons_of_mem _ h1, h2⟩

theorem map_modifyNth {α β : Type} (k : α → β) (g : α → α) (hg : ∀ a, k (g a) = k a)
    (i : Nat) (l : List α) : (modifyNth g i l).map k = l.map k := by
  induction l generalizing i with
  | nil => simp [modifyNth]
  | cons a l ih =>
    cases i with
    | zero => simp [modifyNth, hg]
    | succ i => simp [modifyNth, ih]

theorem updateAt_node (f : routeItem → routeItem) (hf : ∀ x, (f x).node = x.node)
    (p : List Nat) (t : routeItem) : (routeItem.updateAt f p t).node = t.node := by
  cases p with
  | nil => exact hf t
  | cons i p => simp [routeItem.updateAt, routeItem.setChildren]

theorem every_updateAt {P : routeItem → Prop} (f : routeItem → routeItem)
    (hnode : ∀ x, (f x).node = x.node)
    (hf : ∀ x, x.Every P → (f x).Every P)
    (hcong : ∀ (t : routeItem) (cs : List routeItem), P t →
      cs.map routeItem.node = t.children.map routeItem.node → P (t.setChildren cs))
    (p : List Nat) (t : routeItem) (h : t.Every P) : (routeItem.updateAt f p t).Every P := by
  induction p generalizing t with
  | nil => exact hf t h
  | cons i p ih =>
    simp only [routeItem.updateAt]
    refine routeItem.Every.intro _ ?_ ?_
    · exact hcong t _ h.here (map_modifyNth _ _ (updateAt_node f hnode p) i _)
    · intro c hc
      simp only [routeItem.setChildren, routeItem.children_mk] at hc
      rcases mem_modifyNth _ _ _ _ hc with h1 | ⟨c0, h1, rfl⟩
      · exact h.child c h1
      · exact ih c0 (h.child c0 h1)

theorem sortedChildren_cong (t : routeItem) (cs : List routeItem) (h : t.SortedChildren)
    (hm : cs.map routeItem.node = t.children.map routeItem.node) :
    (t.setChildren cs).SortedChildren := by
  unfold routeItem.SortedChildren at *
  simp only [routeItem.setChildren, routeItem.children_mk]
  have h1 : (t.children.map routeItem.node).Pairwise (fun a b => a.nt ≤ b.nt) :=
    List.pairwise_map.mpr h
  rw [← hm] at h1
  exact (List.pairwise_map (f := routeItem.node) (R := fun a b => a.nt ≤ b.nt)).mp h1

theorem every_sorted_addChildren (E : Env) (id : Nat) (method : String) (nodes : List node)
    (parent : routeItem) (h : parent.Every routeItem.SortedChildren) :
    (routeItem.addChildren E id method nodes parent).Every routeItem.SortedChildren := by
  induction nodes generalizing parent with
  | nil =>
    simp only [routeItem.addChildren, routeItem.setApis]
    exact routeItem.Every.intro _ h.here h.child
  | cons n rest ih =>
    simp only [routeItem.addChildren, routeItem.setChildren]
    refine routeItem.Every.intro _ ?_ ?_
    · exact E.sortSlice_sorted _
    · intro c hc
      simp only [routeItem.children_mk] at hc
      have hc2 := (E.sortSlice_perm _).subset hc
      rcases List.mem_append.mp hc2 with h1 | h1
      · exact h.child c h1
      · rw [List.mem_singleton] at h1
        subst h1
        exact ih _ (routeItem.Every.intro _ (by simp [routeItem.SortedChildren]) (by simp))

theorem Add_cases (E : Env) (r r' : Route) (api : API) (seed : Nat) (err : Option AddError)
    (h : Add E r api seed = some (r', err)) :
    r' = r ∨ (∃ path t, r' = ⟨r.root.updateAt (fun p => p.setApis t) path⟩) ∨
      (∃ path nodes, r' = ⟨r.root.updateAt
        (fun p => p.addChildren E api.ID api.Method nodes) path⟩) := by
  unfold Add at h
  split at h
  · simp at h; exact Or.inl h.1.symm
  · simp only at h
    split at h
    · simp at h
    · split at h
      · split at h
        · split at h
          · simp at h; exact Or.inl h.1.symm
          · split at h
            · simp at h; exact Or.inl h.1.symm
            · split at h
              · simp at h; exact Or.inl h.1.symm
              · simp at h; exact Or.inr (Or.inl ⟨_, _, h.1.symm⟩)
        · simp at h; exact Or.inr (Or.inl ⟨_, _, h.1.symm⟩)
      · split at h
        · simp at h; exact Or.inr (Or.inr ⟨_, _, h.1.symm⟩)
        · simp at h

theorem every_sorted_of_reachable (E : Env) (r : Route) (h : Reachable E r) :
    r.root.Every routeItem.SortedChildren := by
  induction h with
  | new => exact routeItem.Every.intro _ (by simp [NewRoute, routeItem.SortedChildren]) (by simp [NewRoute])
  | add _ hadd ih =>
    rcases Add_cases _ _ _ _ _ _ hadd with rfl | ⟨path, t, rfl⟩ | ⟨path, nodes, rfl⟩
    · exact ih
    · refine every_updateAt (fun p => p.setApis t) (fun x => rfl) ?_ sortedChildren_cong path _ ih
      intro x hx
      exact routeItem.Every.intro _ hx.here hx.child
    · refine every_updateAt (fun p => p.addChildren E _ _ nodes) ?_ ?_ sortedChildren_cong path _ ih
      · intro x
        cases nodes <;> rfl
      · intro x hx
        exact every_sorted_addChildren E _ _ _ x hx

/-- C10: sorted children. In every route reachable from `NewRoute()` by `Add` calls,
whatever they return, the children of every node are in non-decreasing order of kind
tag (`node.nt`). -/
theorem children_sorted_of_reachable (E : Env) (r : Route) (h : Reachable E r)
    (path : List Nat) (t : routeItem) (ht : r.root.nodeAt path = some t) :
    t.children.Pairwise (fun a b => a.node.nt ≤ b.node.nt) :=
  every_nodeAt path r.root t (every_sorted_of_reachable E r h) ht

/-- C10 after `/users/:id` and then `/users/me` are added: the children of the node
`users` are the literal first, then the catch-all. -/
theorem children_sorted_of_reachable_users :
    (routeItem.mk (constSeg "users") [routeItem.mk (constSeg "me") [] (some [("GET", 2)]),
      routeItem.mk (stringSeg "id") [] (some [("GET", 1)])] none).children.Pairwise
      (fun a b => a.node.nt ≤ b.node.nt) :=
  children_sorted_of_reachable goEnv
    ⟨routeItem.mk slashSeg [routeItem.mk (constSeg "users")
      [routeItem.mk (constSeg "me") [] (some [("GET", 2)]),
        routeItem.mk (stringSeg "id") [] (some [("GET", 1)])] none] none⟩
    (Reachable.add
      (Reachable.add Reachable.new
        (rfl : Add goEnv NewRoute ⟨1, Except.ok [slashSeg, constSeg "users", stringSeg "id"],
          "GET"⟩ 0 = some (⟨routeItem.mk slashSeg [routeItem.mk (constSeg "users")
            [routeItem.mk (stringSeg "id") [] (some [("GET", 1)])] none] none⟩, none)))
      (rfl : Add goEnv ⟨routeItem.mk slashSeg [routeItem.mk (constSeg "users")
            [routeItem.mk (stringSeg "id") [] (some [("GET", 1)])] none] none⟩
          ⟨2, Except.ok [slashSeg, constSeg "users", constSeg "me"], "GET"⟩ 0 = some (_, none)))
    [0] _ rfl

/-- C12: the first registered `Enum` alternatives govern. With `c` not the match-all
wildcard and two distinct methods, neither of them `*`, adding `[Slash, Const c, Enum A1]`
under the first and then `[Slash, Const c, Enum A2]` under the second to the empty route
succeeds both times; both registrations sit on one node, which keeps the first segment;
and the lookup of `[Slash, c, v]` under the second method, for `v` not byte-identical to
`c`, returns `(id2, true)` if `v` is an alternative of the first segment and `(0, false)`
otherwise, whatever the alternatives of the second. -/
theorem Find_first_enum_alternatives (E : Env) (s1 k1 e1 s2 k2 e2 sq kq vq : node)
    (m1 m2 : String) (id1 id2 seed1 seed2 : Nat) {σ : Type}
    (paramsFunc : Option (Bytes → Bytes → σ → σ)) (s : σ)
    (hs1 : s1.nt = slashType) (hk1 : k1.nt = constType) (he1 : e1.nt = enumType)
    (hs2 : s2.nt = slashType) (hk2 : k2.nt = constType) (he2 : e2.nt = enumType)
    (hk : k2.value = k1.value) (hw : k1.value ≠ E.matchAll)
    (hm : m1 ≠ m2) (hm1 : m1 ≠ "*") (hm2 : m2 ≠ "*")
    (hsq : sq.nt = slashType) (hkq : kq.nt ≠ slashType) (hvq : vq.nt ≠ slashType)
    (hkv : kq.value = k1.value) (hne : vq.value ≠ k1.value) :
    ∃ r1 r2, Add E NewRoute ⟨id1, Except.ok [s1, k1, e1], m1⟩ seed1 = some (r1, none) ∧
      Add E r1 ⟨id2, Except.ok [s2, k2, e2], m2⟩ seed2 = some (r2, none) ∧
      r2 = ⟨routeItem.mk ⟨slashType, [], false, []⟩
        [routeItem.mk k1 [routeItem.mk e1 [] (some [(m1, id1), (m2, id2)])] none] none⟩ ∧
      (Find E r2 (Except.ok [sq, kq, vq]) m2 paramsFunc s).map Prod.fst =
        some (if vq.value ∈ e1.enumAlternatives then (id2, true) else (0, false)) := by
  have hadd1 : Add E NewRoute ⟨id1, Except.ok [s1, k1, e1], m1⟩ seed1 =
      some (⟨routeItem.mk ⟨slashType, [], false, []⟩
        [routeItem.mk k1 [routeItem.mk e1 [] (some [(m1, id1)])] none] none⟩, none) := by
    simp [Add, NewRoute, removeSlash, removeSlashFrom, addLoop, routeItem.matches,
      scanChildren, routeItem.updateAt, routeItem.addChildren, routeItem.setChildren,
      routeItem.setApis, sortSlice_singleton, mapSet, hs1, hk1, he1]
  have hb1 : ("*" == m1) = false := by simpa using Ne.symm hm1
  have hb2 : (m2 == m1) = false := by simpa using Ne.symm hm
  have hadd2 : Add E ⟨routeItem.mk ⟨slashType, [], false, []⟩
        [routeItem.mk k1 [routeItem.mk e1 [] (some [(m1, id1)])] none] none⟩
      ⟨id2, Except.ok [s2, k2, e2], m2⟩ seed2 =
      some (⟨routeItem.mk ⟨slashType, [], false, []⟩
        [routeItem.mk k1 [routeItem.mk e1 [] (some [(m1, id1), (m2, id2)])] none] none⟩,
        none) := by
    simp [Add, removeSlash, removeSlashFrom, addLoop, routeItem.matches,
      scanChildren, routeItem.updateAt, routeItem.setChildren, modifyNth,
      routeItem.setApis, mapSet, mapIndex, List.lookup, hs2, hk2, he2, hk1, he1, hk, hm2,
      hb1, hb2]
  have hb : (k1.value == E.matchAll) = false := by simpa using hw
  have hne2 : k1.value ≠ vq.value := Ne.symm hne
  refine ⟨_, _, hadd1, hadd2, rfl, ?_⟩
  by_cases hin : vq.value ∈ e1.enumAlternatives
  · simp [Find, hb, hne2, List.lookup, findLoop, routeItem.urlMatches, findResult,
      removeSlash, removeSlashFrom, scanChildren, hsq, hkq, hvq, hkv, hk1, he1,
      node.isMatchAllConstString, node.inEnumValue, hin, hb2]
  · simp [Find, hb, hne2, List.lookup, findLoop, routeItem.urlMatches, findResult,
      removeSlash, removeSlashFrom, scanChildren, hsq, hkq, hvq, hkv, hk1, he1,
      node.isMatchAllConstString, node.inEnumValue, hin]

/-- C12 at `/color/enum:red|green` under `GET` and `/color/enum:blue` under `POST`: the
lookup of `/color/blue` under `POST` is not found. -/
theorem Find_first_enum_alternatives_color :
    ∃ r1 r2, Add goEnv NewRoute ⟨1, Except.ok [slashSeg, constSeg "color",
        enumSeg "red|green"], "GET"⟩ 0 = some (r1, none) ∧
      Add goEnv r1 ⟨2, Except.ok [slashSeg, constSeg "color", enumSeg "blue"], "POST"⟩ 0
        = some (r2, none) ∧
      r2 = ⟨routeItem.mk slashSeg [routeItem.mk (constSeg "color")
        [routeItem.mk (enumSeg "red|green") [] (some [("GET", 1), ("POST", 2)])] none] none⟩ ∧
      (Find goEnv r2 (Except.ok [slashSeg, constSeg "color", constSeg "blue"]) "POST"
        recordParams []).map Prod.fst = some (0, false) :=
  Find_first_enum_alternatives goEnv slashSeg (constSeg "color") (enumSeg "red|green")
    slashSeg (constSeg "color") (enumSeg "blue") slashSeg (constSeg "color") (constSeg "blue")
    "GET" "POST" 1 2 0 0 recordParams [] rfl rfl rfl rfl rfl rfl rfl (by decide) (by decide)
    (by decide) (by decide) rfl (by decide) (by decide) rfl (by decide)


/-- C15: `Add` is atomic on failure. Whenever `Add` returns an error, the tokenizer's or
a conflict, the route after the call is the route before it. -/
theorem Add_error_leaves_route (E : Env) (r r' : Route) (api : API) (seed : Nat)
    (e : AddError) (h : Add E r api seed = some (r', some e)) : r' = r := by
  unfold Add at h
  split at h
  · simp at h; exact h.1.symm
  · simp only at h
    split at h
    · simp at h
    · split at h
      · split at h
        · split at h
          · simp at h; exact h.1.symm
          · split at h
            · simp at h; exact h.1.symm
            · split at h
              · simp at h; exact h.1.symm
              · simp at h
        · simp at h
      · split at h
        · simp at h
        · simp at h

/-- C15 at a node registered for `GET`: the wildcard registration of the same pattern
is refused and leaves the route as it was. -/
theorem Add_error_leaves_route_wildcard :
    Add goEnv ⟨routeItem.mk slashSeg [routeItem.mk (constSeg "a") [] (some [("GET", 1)])] none⟩
      ⟨2, Except.ok [slashSeg, constSeg "a"], "*"⟩ 0 =
      some (⟨routeItem.mk slashSeg [routeItem.mk (constSeg "a") [] (some [("GET", 1)])] none⟩,
        some (AddError.conflict 1)) ∧
    (⟨routeItem.mk slashSeg [routeItem.mk (constSeg "a") [] (some [("GET", 1)])] none⟩ : Route)
      = ⟨routeItem.mk slashSeg [routeItem.mk (constSeg "a") [] (some [("GET", 1)])] none⟩ :=
  ⟨rfl, Add_error_leaves_route goEnv
    ⟨routeItem.mk slashSeg [routeItem.mk (constSeg "a") [] (some [("GET", 1)])] none⟩ _
    ⟨2, Except.ok [slashSeg, constSeg "a"], "*"⟩ 0 (AddError.conflict 1) rfl⟩

/-- C18: `Find` commits to the first Compatible child and does not backtrack. After
`/u/(number):n/x` (id 1) and the all-literal `/u/5/y` (id 2) are added under `GET` to
the empty route, both without error, the lookup of `/u/5/y` under `GET` returns
`(0, false)`: below `u` the `Number` child comes before the `Const` child `5` and
accepts the segment `5`, and nothing below it accepts `y`. -/
theorem Find_no_backtracking :
    ∃ r1 r2, Add goEnv NewRoute ⟨1, Except.ok [slashSeg, constSeg "u", numberSeg "n",
        constSeg "x"], "GET"⟩ 0 = some (r1, none) ∧
      Add goEnv r1 ⟨2, Except.ok [slashSeg, constSeg "u", constSeg "5", constSeg "y"], "GET"⟩ 0
        = some (r2, none) ∧
      Find goEnv r2 (Except.ok [slashSeg, constSeg "u", constSeg "5", constSeg "y"]) "GET"
        recordParams [] = some ((0, false), [(StringToSlice "n", StringToSlice "5")]) :=
  ⟨⟨routeItem.mk slashSeg [routeItem.mk (constSeg "u") [routeItem.mk (numberSeg "n")
      [routeItem.mk (constSeg "x") [] (some [("GET", 1)])] none] none] none⟩,
   ⟨routeItem.mk slashSeg [routeItem.mk (constSeg "u") [routeItem.mk (numberSeg "n")
      [routeItem.mk (constSeg "x") [] (some [("GET", 1)])] none,
      routeItem.mk (constSeg "5") [routeItem.mk (constSeg "y") [] (some [("GET", 2)])] none]
      none] none⟩, rfl, rfl, rfl⟩


theorem removeSlashFrom_succ (k : Nat) (s : List node) :
    removeSlashFrom (k + 1) s = s.filter (fun n => decide (n.nt ≠ slashType)) := by
  induction s generalizing k with
  | nil => simp [removeSlashFrom]
  | cons a t ih =>
    by_cases h : a.nt = slashType
    · simp [removeSlashFrom, h, ih]
    · simp [removeSlashFrom, h, ih]

theorem removeSlash_cons (a : node) (t : List node) :
    removeSlash (a :: t) = a :: t.filter (fun n => decide (n.nt ≠ slashType)) := by
  by_cases h : a.nt = slashType
  · simp [removeSlash, removeSlashFrom, h, removeSlashFrom_succ]
  · simp [removeSlash, removeSlashFrom, h, removeSlashFrom_succ]

theorem enumFrom_filter_succ (k : Nat) (s : List node) :
    ((List.enumFrom (k + 1) s).filter
      (fun p => !(decide (p.2.nt = slashType) && decide (0 < p.1)))).map Prod.snd =
      s.filter (fun n => decide (n.nt ≠ slashType)) := by
  induction s generalizing k with
  | nil => simp
  | cons a t ih =>
    by_cases h : a.nt = slashType
    · have := ih (k + 1)
      simp [List.enumFrom, List.filter_cons, h] at this ⊢
      exact this
    · have := ih (k + 1)
      simp [List.enumFrom, List.filter_cons, h] at this ⊢
      exact this

/-- C19: `removeSlash` deletes exactly the non-leading `Slash` segments. The result is
the sequence with every `Slash` segment at an index greater than 0 removed: the element
at index 0 is kept whatever its kind, the others are kept in order when their kind is
not `Slash`. Hence no segment after the first of the result is a `Slash`, and applying
`removeSlash` twice is applying it once. -/
theorem removeSlash_drops_inner_slashes (s : List node) :
    removeSlash s = dropInnerSlashes s ∧
    (removeSlash s).head? = s.head? ∧
    (removeSlash s).tail = s.tail.filter (fun n => decide (n.nt ≠ slashType)) ∧
    (∀ n ∈ (removeSlash s).tail, n.nt ≠ slashType) ∧
    removeSlash (removeSlash s) = removeSlash s := by
  cases s with
  | nil => simp [removeSlash, removeSlashFrom, dropInnerSlashes]
  | cons a t =>
    refine ⟨?_, ?_, ?_, ?_, ?_⟩
    · rw [removeSlash_cons]
      have := enumFrom_filter_succ 0 t
      simp [dropInnerSlashes, List.enum, List.enumFrom, List.filter_cons] at this ⊢
      exact this.symm
    · simp [removeSlash_cons]
    · simp [removeSlash_cons]
    · simp [removeSlash_cons]
    · simp [removeSlash_cons]


theorem mem_mapSet (t : List (String × Nat)) (k : String) (v : Nat) (e : String × Nat)
    (h : e ∈ mapSet t k v) : e ∈ t ∨ e = (k, v) := by
  unfold mapSet at h
  split at h
  · rw [List.mem_map] at h
    obtain ⟨a, ha, rfl⟩ := h
    by_cases hk : a.1 = k
    · simp [hk]
    · simp [hk, ha]
  · rcases List.mem_append.mp h with h | h
    · exact Or.inl h
    · exact Or.inr (by simpa using h)

theorem modifyNth_mem_index {α : Type} (g : α → α) (i : Nat) (l : List α) (c : α)
    (h : c ∈ modifyNth g i l) : c ∈ l ∨ ∃ c0, l[i]? = some c0 ∧ c = g c0 := by
  induction l generalizing i with
  | nil => simp [modifyNth] at h
  | cons a l ih =>
    cases i with
    | zero =>
      simp only [modifyNth, List.mem_cons] at h
      rcases h with rfl | h
      · exact Or.inr ⟨a, by simp, rfl⟩
      · exact Or.inl (List.mem_cons_of_mem _ h)
    | succ i =>
      simp only [modifyNth, List.mem_cons] at h
      rcases h with rfl | h
      · exact Or.inl (by simp)
      · rcases ih i h with h1 | ⟨c0, h1, h2⟩
        · exact Or.inl (List.mem_cons_of_mem _ h1)
        · exact Or.inr ⟨c0, by simpa using h1, h2⟩

theorem every_updateAt_at {P : routeItem → Prop} (f : routeItem → routeItem)
    (hnode : ∀ x, (f x).node = x.node)
    (hcong : ∀ (t : routeItem) (cs : List routeItem), P t →
      cs.map routeItem.node = t.children.map routeItem.node → P (t.setChildren cs))
    (p : List Nat) (t : routeItem) (h : t.Every P)
    (hf : ∀ x, t.nodeAt p = some x → x.Every P → (f x).Every P) :
    (routeItem.updateAt f p t).Every P := by
  induction p generalizing t with
  | nil => exact hf t rfl h
  | cons i p ih =>
    simp only [routeItem.updateAt]
    refine routeItem.Every.intro _ ?_ ?_
    · exact hcong t _ h.here (map_modifyNth _ _ (updateAt_node f hnode p) i _)
    · intro c hc
      simp only [routeItem.setChildren, routeItem.children_mk] at hc
      rcases modifyNth_mem_index _ _ _ _ hc with h1 | ⟨c0, h1, rfl⟩
      · exact h.child c h1
      · refine ih c0 (h.child c0 (List.getElem?_mem h1)) ?_
        intro x hx
        apply hf x
        simp [routeItem.nodeAt, h1, hx]

theorem Add_ok_cases (E : Env) (r r' : Route) (api : API) (seed : Nat)
    (h : Add E r api seed = some (r', none)) :
    ∃ parsed parent matchedIdx, api.URLPattern = Except.ok parsed ∧
      addLoop ⟨[], r.root⟩ 0 0 (removeSlash parsed) = some (parent, matchedIdx) ∧
      ((matchedIdx + 1 = (removeSlash parsed).length ∧
          r' = ⟨r.root.updateAt (fun p => p.setApis
            (mapSet (parent.item.apis.getD []) api.Method api.ID)) parent.path⟩ ∧
          ∀ t, parent.item.apis = some t →
            ¬ (api.Method = "*" ∧ t.length > 0) ∧ mapIndex t "*" = 0 ∧
              mapIndex t api.Method = 0) ∨
        (matchedIdx + 1 < (removeSlash parsed).length ∧
          r' = ⟨r.root.updateAt (fun p => p.addChildren E api.ID api.Method
            ((removeSlash parsed).drop (matchedIdx + 1))) parent.path⟩)) := by
  unfold Add at h
  split at h
  · simp at h
  · rename_i parsed hp
    simp only at h
    split at h
    · simp at h
    · rename_i parent matchedIdx hw
      refine ⟨parsed, parent, matchedIdx, hp, hw, ?_⟩
      split at h
      · rename_i hlen
        left
        split at h
        · rename_i t ht
          split at h
          · simp at h
          · rename_i h1
            split at h
            · simp at h
            · rename_i h2
              split at h
              · simp at h
              · rename_i h3
                simp at h
                refine ⟨hlen, ?_, ?_⟩
                · rw [ht]; exact h.symm
                · intro t' ht'
                  rw [ht] at ht'
                  cases ht'
                  exact ⟨h1, by simpa using h2, by simpa using h3⟩
        · rename_i ht
          simp at h
          refine ⟨hlen, ?_, ?_⟩
          · rw [ht]; exact h.symm
          · intro t' ht'
            rw [ht] at ht'
            cases ht'
      · rename_i hlen
        right
        split at h
        · rename_i hle
          simp at h
          exact ⟨by omega, h.symm⟩
        · simp at h

theorem tableOK_single (m : String) (id : Nat) (hid : id ≠ 0) (n : node)
    (cs : List routeItem) : (routeItem.mk n cs (some (mapSet [] m id))).TableOK := by
  intro tb htb
  simp only [routeItem.apis_mk, Option.some.injEq] at htb
  subst htb
  refine ⟨by simp [mapSet, List.lookup], by simp [mapSet, List.lookup, hid],
    by simp [mapSet, List.lookup], ?_⟩
  by_cases hm : m = "*"
  · left; simp [mapSet, List.lookup, hm]
  · right; simp [mapSet, List.lookup, hm]

theorem every_tableOK_fresh (E : Env) (id : Nat) (m : String) (hid : id ≠ 0)
    (nodes : List node) (n : node) :
    (routeItem.addChildren E id m nodes (routeItem.mk n [] none)).Every routeItem.TableOK := by
  induction nodes generalizing n with
  | nil =>
    simp only [routeItem.addChildren, routeItem.setApis, routeItem.apis_mk, Option.getD_none,
      routeItem.node_mk, routeItem.children_mk]
    exact routeItem.Every.intro _ (tableOK_single m id hid n []) (by simp)
  | cons a rest ih =>
    simp only [routeItem.addChildren, routeItem.setChildren, routeItem.children_mk,
      List.nil_append, sortSlice_singleton, routeItem.node_mk, routeItem.apis_mk]
    refine routeItem.Every.intro _ ?_ ?_
    · intro tb htb; simp at htb
    · intro c hc
      simp only [routeItem.children_mk, List.mem_singleton] at hc
      subst hc
      exact ih a

theorem every_tableOK_addChildren (E : Env) (id : Nat) (m : String) (hid : id ≠ 0)
    (nodes : List node) (hne : nodes ≠ []) (x : routeItem) (hx : x.Every routeItem.TableOK) :
    (routeItem.addChildren E id m nodes x).Every routeItem.TableOK := by
  cases nodes with
  | nil => exact absurd rfl hne
  | cons a rest =>
    simp only [routeItem.addChildren, routeItem.setChildren]
    refine routeItem.Every.intro _ ?_ ?_
    · intro tb htb
      exact hx.here tb (by simpa using htb)
    · intro c hc
      simp only [routeItem.children_mk] at hc
      rcases List.mem_append.mp ((E.sortSlice_perm _).subset hc) with h1 | h1
      · exact hx.child c h1
      · rw [List.mem_singleton] at h1
        subst h1
        exact every_tableOK_fresh E id m hid rest a

theorem tableOK_setApis (x : routeItem) (m : String) (id : Nat) (hid : id ≠ 0)
    (hx : x.TableOK)
    (hc : ∀ t, x.apis = some t →
      ¬ (m = "*" ∧ t.length > 0) ∧ mapIndex t "*" = 0 ∧ mapIndex t m = 0) :
    (x.setApis (mapSet (x.apis.getD []) m id)).TableOK := by
  cases hx0 : x.apis with
  | none =>
    simp only [routeItem.setApis, Option.getD_none]
    exact tableOK_single m id hid _ _
  | some t =>
    obtain ⟨h1, h2, h3, h4⟩ := hx t hx0
    obtain ⟨c1, c2, c3⟩ := hc t hx0
    have hstar : "*" ∉ t.map Prod.fst := fun h => (mapIndex_ne_zero_iff t h2 "*").mpr h c2
    have hm : m ∉ t.map Prod.fst := fun h => (mapIndex_ne_zero_iff t h2 m).mpr h c3
    have hlen : t.length > 0 := List.length_pos.mpr h1
    have hms : m ≠ "*" := fun h => c1 ⟨h, hlen⟩
    intro tb htb
    simp only [routeItem.setApis, routeItem.apis_mk, Option.getD_some, Option.some.injEq,
      mapSet_of_not_mem t m id hm] at htb
    subst htb
    refine ⟨by simp, ?_, ?_, Or.inr ?_⟩
    · intro e he
      rcases List.mem_append.mp he with he | he
      · exact h2 e he
      · simp at he; subst he; exact hid
    · rw [List.map_append, List.nodup_append]
      refine ⟨h3, by simp, ?_⟩
      intro a ha hb
      simp at hb
      subst hb
      exact hm ha
    · intro e he
      rcases List.mem_append.mp he with he | he
      · intro h
        exact hstar (List.mem_map.mpr ⟨e, he, h⟩)
      · simp at he; subst he; exact hms

theorem Add_err_route (E : Env) (r r' : Route) (api : API) (seed : Nat)
    (e : AddError) (h : Add E r api seed = some (r', some e)) : r' = r := by
  unfold Add at h
  split at h
  · simp at h; exact h.1.symm
  · simp only at h
    split at h
    · simp at h
    · split at h
      · split at h
        · split at h
          · simp at h; exact h.1.symm
          · split at h
            · simp at h; exact h.1.symm
            · split at h
              · simp at h; exact h.1.symm
              · simp at h
        · simp at h
      · split at h
        · simp at h
        · simp at h

theorem every_tableOK_of_reachable (E : Env) (r : Route)
    (h : ReachableBy E (fun api => api.ID ≠ 0) r) : r.root.Every routeItem.TableOK := by
  induction h with
  | new =>
    exact routeItem.Every.intro _ (by intro tb htb; simp [NewRoute] at htb) (by simp [NewRoute])
  | @add r r' api seed err _ hid hadd ih =>
    cases err with
    | some e =>
      rw [Add_err_route E r r' api seed e hadd]
      exact ih
    | none =>
      obtain ⟨parsed, parent, mi, _, hw, hcase⟩ := Add_ok_cases E r r' api seed hadd
      have hptr := addLoop_pointer r.root _ ⟨[], r.root⟩ _ _ _ _ rfl hw
      have hcong : ∀ (t : routeItem) (cs : List routeItem), t.TableOK →
          cs.map routeItem.node = t.children.map routeItem.node →
          (t.setChildren cs).TableOK := fun t cs ht _ => ht
      rcases hcase with ⟨_, rfl, hc⟩ | ⟨hlt, rfl⟩
      · refine every_updateAt_at (fun p => p.setApis
          (mapSet (parent.item.apis.getD []) api.Method api.ID)) (fun x => rfl) hcong _ _ ih ?_
        intro x hx hex
        rw [hptr] at hx
        cases hx
        exact routeItem.Every.intro _
          (tableOK_setApis parent.item api.Method api.ID hid hex.here hc) hex.child
      · refine every_updateAt_at (fun p => p.addChildren E api.ID api.Method
          ((removeSlash parsed).drop (mi + 1))) ?_ hcong _ _ ih ?_
        · intro x
          cases (removeSlash parsed).drop (mi + 1) <;> rfl
        · intro x _ hex
          refine every_tableOK_addChildren E _ _ hid _ ?_ x hex
          intro h0
          have := congrArg List.length h0
          simp at this
          omega

theorem ReachableBy.mono (E : Env) (P Q : API → Prop) (hPQ : ∀ a, P a → Q a) (r : Route)
    (h : ReachableBy E P r) : ReachableBy E Q r := by
  induction h with
  | new => exact ReachableBy.new
  | add _ hp hadd ih => exact ReachableBy.add ih (hPQ _ hp) hadd

theorem mem_removeSlash (p : List node) (n : node) (h : n ∈ removeSlash p) : n ∈ p := by
  cases p with
  | nil => simp [removeSlash, removeSlashFrom] at h
  | cons a t =>
    rw [removeSlash_cons] at h
    rcases List.mem_cons.mp h with h | h
    · simp [h]
    · exact List.mem_cons_of_mem _ (List.mem_filter.mp h).1

theorem every_valid_addChildren (E : Env) (id : Nat) (m : String) (nodes : List node)
    (hn : ∀ n ∈ nodes, validKind n.nt) (x : routeItem) (hx : x.Every routeItem.ValidKind) :
    (routeItem.addChildren E id m nodes x).Every routeItem.ValidKind := by
  induction nodes generalizing x with
  | nil =>
    simp only [routeItem.addChildren, routeItem.setApis]
    exact routeItem.Every.intro _ hx.here hx.child
  | cons a rest ih =>
    simp only [routeItem.addChildren, routeItem.setChildren]
    refine routeItem.Every.intro _ hx.here ?_
    intro c hc
    simp only [routeItem.children_mk] at hc
    rcases List.mem_append.mp ((E.sortSlice_perm _).subset hc) with h1 | h1
    · exact hx.child c h1
    · rw [List.mem_singleton] at h1
      subst h1
      exact ih (fun n hn' => hn n (List.mem_cons_of_mem _ hn')) _
        (routeItem.Every.intro _ (hn a (by simp)) (by simp))

theorem every_valid_of_reachable (E : Env) (r : Route)
    (h : ReachableBy E API.validKinds r) : r.root.Every routeItem.ValidKind := by
  induction h with
  | new =>
    exact routeItem.Every.intro _ (Or.inl rfl) (by simp [NewRoute])
  | @add r r' api seed err _ hv hadd ih =>
    cases err with
    | some e =>
      rw [Add_err_route E r r' api seed e hadd]
      exact ih
    | none =>
      obtain ⟨parsed, parent, mi, hp, hw, hcase⟩ := Add_ok_cases E r r' api seed hadd
      have hcong : ∀ (t : routeItem) (cs : List routeItem), t.ValidKind →
          cs.map routeItem.node = t.children.map routeItem.node →
          (t.setChildren cs).ValidKind := fun t cs ht _ => ht
      rcases hcase with ⟨_, rfl, _⟩ | ⟨_, rfl⟩
      · refine every_updateAt (fun p => p.setApis
          (mapSet (parent.item.apis.getD []) api.Method api.ID)) (fun x => rfl) ?_ hcong _ _ ih
        intro x hex
        exact routeItem.Every.intro _ hex.here hex.child
      · refine every_updateAt (fun p => p.addChildren E api.ID api.Method
          ((removeSlash parsed).drop (mi + 1))) ?_ ?_ hcong _ _ ih
        · intro x
          cases (removeSlash parsed).drop (mi + 1) <;> rfl
        · intro x hex
          refine every_valid_addChildren E _ _ _ ?_ x hex
          intro n hn
          exact hv parsed hp n (mem_removeSlash _ _ (List.mem_of_mem_drop hn))

theorem matches_isSome (item : routeItem) (n : node) (h : item.ValidKind) :
    ∃ b, item.matches n = some b := by
  unfold routeItem.matches
  by_cases hne : item.node.nt ≠ n.nt
  · exact ⟨false, by rw [if_pos hne]⟩
  · rw [if_neg hne]
    rcases h with h | h | h | h | h <;> simp [h]

theorem urlMatches_isSome (E : Env) (item : routeItem) (n : node) (h : item.ValidKind) :
    ∃ b, item.urlMatches E n = some b := by
  unfold routeItem.urlMatches
  rcases h with h | h | h | h | h <;> simp [h]

theorem scanChildren_isSome (test : routeItem → Option Bool) (k : Nat) (l : List routeItem)
    (h : ∀ c ∈ l, ∃ b, test c = some b) :
    scanChildren test k l = some none ∨
      ∃ i c, c ∈ l ∧ scanChildren test k l = some (some (i, c)) := by
  induction l generalizing k with
  | nil => left; rfl
  | cons a l ih =>
    obtain ⟨b, hb⟩ := h a (by simp)
    unfold scanChildren
    cases b with
    | true => right; exact ⟨k, a, by simp, by simp [hb]⟩
    | false =>
      simp only [hb]
      rcases ih (k + 1) (fun c hc => h c (List.mem_cons_of_mem _ hc)) with h1 | ⟨i, c, h1, h2⟩
      · left; exact h1
      · right; exact ⟨i, c, List.mem_cons_of_mem _ h1, h2⟩

theorem addLoop_isSome (nodes : List node) (parent : Pointer) (idx matchedIdx : Nat)
    (h : parent.item.Every routeItem.ValidKind) :
    ∃ res, addLoop parent idx matchedIdx nodes = some res := by
  induction nodes generalizing parent idx matchedIdx with
  | nil => exact ⟨_, rfl⟩
  | cons n rest ih =>
    unfold addLoop
    obtain ⟨b, hb⟩ := matches_isSome parent.item n h.here
    cases b with
    | true => simp only [hb]; exact ih parent _ _ h
    | false =>
      simp only [hb]
      rcases scanChildren_isSome (fun item => item.matches n) 0 parent.item.children
        (fun c hc => matches_isSome c n (h.child c hc).here) with h1 | ⟨i, c, h1, h2⟩
      · simp only [h1]; exact ⟨_, rfl⟩
      · simp only [h2]
        exact ih ⟨parent.path ++ [i], c⟩ _ _ (h.child c h1)

theorem findLoop_isSome {σ : Type} (E : Env) (paramsFunc : Option (Bytes → Bytes → σ → σ))
    (nodes : List node) (target : routeItem) (idx matchedIdx : Nat) (s : σ)
    (h : target.Every routeItem.ValidKind) :
    ∃ res, findLoop E paramsFunc target idx matchedIdx s nodes = some res := by
  induction nodes generalizing target idx matchedIdx s with
  | nil => exact ⟨_, rfl⟩
  | cons n rest ih =>
    unfold findLoop
    obtain ⟨b, hb⟩ := urlMatches_isSome E target n h.here
    cases b with
    | true => simp only [hb]; exact ih target _ _ _ h
    | false =>
      simp only [hb]
      rcases scanChildren_isSome (fun item => item.urlMatches E n) 0 target.children
        (fun c hc => urlMatches_isSome E c n (h.child c hc).here) with h1 | ⟨i, c, h1, h2⟩
      · simp only [h1]; exact ⟨_, rfl⟩
      · simp only [h2]
        exact ih c _ _ _ (h.child c h1)

theorem addLoop_matchedIdx (nodes : List node) (parent res : Pointer)
    (idx matchedIdx mi : Nat) (h : addLoop parent idx matchedIdx nodes = some (res, mi)) :
    mi = matchedIdx ∨ (idx ≤ mi ∧ mi < idx + nodes.length) := by
  induction nodes generalizing parent idx matchedIdx with
  | nil => simp [addLoop] at h; exact Or.inl h.2.symm
  | cons n rest ih =>
    unfold addLoop at h
    cases hm : parent.item.matches n with
    | none => simp [hm] at h
    | some b =>
      cases b with
      | true =>
        simp only [hm] at h
        rcases ih _ _ _ h with h1 | h1
        · right; simp; omega
        · right; simp; omega
      | false =>
        simp only [hm] at h
        cases hs : scanChildren (fun item => item.matches n) 0 parent.item.children with
        | none => simp [hs] at h
        | some o =>
          cases o with
          | none => simp [hs] at h; exact Or.inl h.2.symm
          | some ic =>
            obtain ⟨i, c⟩ := ic
            simp only [hs] at h
            rcases ih _ _ _ h with h1 | h1
            · right; simp; omega
            · right; simp; omega

theorem Add_isSome (E : Env) (r : Route) (api : API) (seed : Nat)
    (hr : r.root.Every routeItem.ValidKind)
    (hne : ∀ p, api.URLPattern = Except.ok p → p ≠ []) :
    ∃ res, Add E r api seed = some res := by
  unfold Add
  split
  · exact ⟨_, rfl⟩
  · rename_i parsed hp
    simp only
    obtain ⟨⟨parent, mi⟩, hw⟩ := addLoop_isSome (removeSlash parsed) ⟨[], r.root⟩ 0 0 hr
    have hlen : 0 < (removeSlash parsed).length := by
      have := hne parsed hp
      cases parsed with
      | nil => exact absurd rfl this
      | cons a t => simp [removeSlash_cons]
    have hb := addLoop_matchedIdx _ _ _ _ _ _ hw
    simp only [hw]
    split
    · split
      · split
        · exact ⟨_, rfl⟩
        · split
          · exact ⟨_, rfl⟩
          · split <;> exact ⟨_, rfl⟩
      · exact ⟨_, rfl⟩
    · split
      · exact ⟨_, rfl⟩
      · omega

/-- C14: the fatal unknown-kind branch is unreachable. In every route built from
`NewRoute()` by `Add` calls whose tokenized patterns hold only segments of the five
kinds, `matches` and `urlMatches` of every node, on any segment, return a boolean and
do not reach the `default` branch; hence the walk of `Add` on any pattern and `Find` on
any request do not abort, and `Add` as a whole returns for every non-empty pattern. -/
theorem fatal_branch_unreachable (E : Env) (r : Route)
    (h : ReachableBy E API.validKinds r) :
    (∀ path item n, r.root.nodeAt path = some item →
      item.matches n ≠ none ∧ item.urlMatches E n ≠ none) ∧
    (∀ nodes, addLoop ⟨[], r.root⟩ 0 0 nodes ≠ none) ∧
    (∀ (api : API) (seed : Nat), (∀ p, api.URLPattern = Except.ok p → p ≠ []) →
      Add E r api seed ≠ none) ∧
    (∀ (url : Except String (List node)) (method : String) (σ : Type)
      (paramsFunc : Option (Bytes → Bytes → σ → σ)) (s : σ),
      Find E r url method paramsFunc s ≠ none) := by
  have hv := every_valid_of_reachable E r h
  refine ⟨?_, ?_, ?_, ?_⟩
  · intro path item n hitem
    have hk : item.ValidKind := every_nodeAt path r.root item hv hitem
    obtain ⟨b1, h1⟩ := matches_isSome item n hk
    obtain ⟨b2, h2⟩ := urlMatches_isSome E item n hk
    simp [h1, h2]
  · intro nodes
    obtain ⟨res, hres⟩ := addLoop_isSome nodes ⟨[], r.root⟩ 0 0 hv
    simp [hres]
  · intro api seed hne
    obtain ⟨res, hres⟩ := Add_isSome E r api seed hv hne
    simp [hres]
  · intro url method σ paramsFunc s
    unfold Find
    cases url with
    | error e => simp
    | ok parsed =>
      obtain ⟨res, hres⟩ := findLoop_isSome E paramsFunc (removeSlash parsed) r.root 0 0 s hv
      simp [hres]

theorem nodup_all_eq {α : Type} (l : List α) (a : α) (hn : l.Nodup) (hne : l ≠ [])
    (h : ∀ x ∈ l, x = a) : l = [a] := by
  match l, hne with
  | [x], _ => simp [h x (by simp)]
  | x :: y :: rest, _ =>
    have hx := h x (by simp)
    have hy := h y (by simp)
    subst hx; subst hy
    simp at hn

/-- C16: wildcard exclusivity. In every route reachable from `NewRoute()` by `Add` calls
with non-zero identifiers, the method table of every node is absent, or is the single
entry `*`, or is non-empty without the key `*`; no table holds both a `*` entry and an
entry for another method. -/
theorem wildcard_exclusive (E : Env) (r : Route)
    (h : ReachableBy E (fun api => api.ID ≠ 0) r) (path : List Nat) (t : routeItem)
    (ht : r.root.nodeAt path = some t) :
    (t.apis = none ∨ (∃ w, w ≠ 0 ∧ t.apis = some [("*", w)]) ∨
      (∃ tb, t.apis = some tb ∧ tb ≠ [] ∧ "*" ∉ tb.map Prod.fst)) ∧
    ¬ (∃ tb k, t.apis = some tb ∧ "*" ∈ tb.map Prod.fst ∧ k ∈ tb.map Prod.fst ∧ k ≠ "*") := by
  have hok : t.TableOK := every_nodeAt path r.root t (every_tableOK_of_reachable E r h) ht
  refine ⟨?_, ?_⟩
  · cases hap : t.apis with
    | none => exact Or.inl rfl
    | some tb =>
      right
      obtain ⟨h1, h2, h3, h4⟩ := hok tb hap
      rcases h4 with h4 | h4
      · left
        have hkeys : tb.map Prod.fst = ["*"] :=
          nodup_all_eq _ _ h3 (by simpa using h1) (by
            intro x hx
            obtain ⟨e, he, rfl⟩ := List.mem_map.mp hx
            exact h4 e he)
        match tb, hkeys with
        | [(k, w)], hk =>
          simp at hk
          subst hk
          exact ⟨w, h2 ("*", w) (by simp), rfl⟩
      · right
        refine ⟨tb, rfl, h1, ?_⟩
        intro hx
        obtain ⟨e, he, hk⟩ := List.mem_map.mp hx
        exact h4 e he hk
  · rintro ⟨tb, k, hap, hs, hk, hne⟩
    obtain ⟨_, _, _, h4⟩ := hok tb hap
    obtain ⟨e1, he1, hk1⟩ := List.mem_map.mp hs
    obtain ⟨e2, he2, hk2⟩ := List.mem_map.mp hk
    rcases h4 with h4 | h4
    · exact hne (hk2 ▸ h4 e2 he2)
    · exact h4 e1 he1 hk1

theorem every_zero_addChildren (E : Env) (m : String) (nodes : List node)
    (x : routeItem) (hx : x.Every routeItem.ZeroTable) :
    (routeItem.addChildren E 0 m nodes x).Every routeItem.ZeroTable := by
  induction nodes generalizing x with
  | nil =>
    simp only [routeItem.addChildren, routeItem.setApis]
    refine routeItem.Every.intro _ ?_ hx.child
    intro tb htb e he
    simp only [routeItem.apis_mk, Option.some.injEq] at htb
    subst htb
    rcases mem_mapSet _ _ _ _ he with h1 | h1
    · cases hap : x.apis with
      | none => simp [hap] at h1
      | some t => rw [hap] at h1; exact hx.here t hap e h1
    · rw [h1]
  | cons a rest ih =>
    simp only [routeItem.addChildren, routeItem.setChildren]
    refine routeItem.Every.intro _ (fun tb htb => hx.here tb (by simpa using htb)) ?_
    intro c hc
    simp only [routeItem.children_mk] at hc
    rcases List.mem_append.mp ((E.sortSlice_perm _).subset hc) with h1 | h1
    · exact hx.child c h1
    · rw [List.mem_singleton] at h1
      subst h1
      exact ih _ (routeItem.Every.intro _ (by intro tb htb; simp at htb) (by simp))

theorem every_zero_of_reachable (E : Env) (r : Route)
    (h : ReachableBy E (fun api => api.ID = 0) r) : r.root.Every routeItem.ZeroTable := by
  induction h with
  | new =>
    exact routeItem.Every.intro _ (by intro tb htb; simp [NewRoute] at htb) (by simp [NewRoute])
  | @add r r' api seed err _ hid hadd ih =>
    cases err with
    | some e =>
      rw [Add_err_route E r r' api seed e hadd]
      exact ih
    | none =>
      obtain ⟨parsed, parent, mi, hp, hw, hcase⟩ := Add_ok_cases E r r' api seed hadd
      have hptr := addLoop_pointer r.root _ ⟨[], r.root⟩ _ _ _ _ rfl hw
      have hcong : ∀ (t : routeItem) (cs : List routeItem), t.ZeroTable →
          cs.map routeItem.node = t.children.map routeItem.node →
          (t.setChildren cs).ZeroTable := fun t cs ht _ => ht
      simp only at hid
      rcases hcase with ⟨_, rfl, _⟩ | ⟨_, rfl⟩
      · refine every_updateAt_at (fun p => p.setApis
          (mapSet (parent.item.apis.getD []) api.Method api.ID)) (fun x => rfl) hcong _ _ ih ?_
        intro x hx hex
        rw [hptr] at hx
        cases hx
        have := every_zero_addChildren E api.Method [] parent.item hex
        rw [hid]
        exact this
      · rw [hid]
        refine every_updateAt (fun p => p.addChildren E 0 api.Method
          ((removeSlash parsed).drop (mi + 1))) ?_ ?_ hcong _ _ ih
        · intro x
          cases (removeSlash parsed).drop (mi + 1) <;> rfl
        · intro x hex
          exact every_zero_addChildren E _ _ x hex

theorem mapIndex_zero (t : List (String × Nat)) (h : ∀ e ∈ t, e.2 = 0) (k : String) :
    mapIndex t k = 0 := by
  unfold mapIndex
  cases hl : t.lookup k with
  | none => rfl
  | some v => exact h _ (lookup_mem t k v hl)

theorem lookup_mapSet_self (t : List (String × Nat)) (k : String) (v : Nat) :
    (mapSet t k v).lookup k = some v := by
  unfold mapSet
  split
  · rename_i h
    induction t with
    | nil => simp [List.lookup] at h
    | cons e t ih =>
      obtain ⟨k1, v1⟩ := e
      by_cases hk : k1 = k
      · subst hk
        rw [List.map_cons, if_pos rfl]
        simp [List.lookup]
      · have hb : (k == k1) = false := by simpa using Ne.symm hk
        simp only [List.lookup, hb] at h
        rw [List.map_cons, if_neg hk]
        simp only [List.lookup, hb]
        exact ih h
  · rename_i h
    have hn : t.lookup k = none := by
      cases hl : t.lookup k with
      | none => rfl
      | some w => simp [hl] at h
    clear h
    induction t with
    | nil => simp [List.lookup]
    | cons e t ih =>
      obtain ⟨k1, v1⟩ := e
      by_cases hk : k = k1
      · subst hk; simp [List.lookup] at hn
      · have hb : (k == k1) = false := by simpa using hk
        simp only [List.lookup, hb] at hn
        simp only [List.cons_append, List.lookup, hb]
        exact ih hn

theorem addChildren_entry (E : Env) (id : Nat) (m : String) (nodes : List node)
    (x : routeItem) :
    ∃ path t tb, (routeItem.addChildren E id m nodes x).nodeAt path = some t ∧
      t.apis = some tb ∧ tb.lookup m = some id := by
  induction nodes generalizing x with
  | nil =>
    exact ⟨[], _, _, rfl, rfl, lookup_mapSet_self _ m id⟩
  | cons n rest ih =>
    obtain ⟨p, t, tb, h1, h2, h3⟩ := ih (routeItem.mk n [] none)
    have hmem : routeItem.addChildren E id m rest (routeItem.mk n [] none) ∈
        E.sortSlice (x.children ++
          [routeItem.addChildren E id m rest (routeItem.mk n [] none)]) :=
      (E.sortSlice_perm _).symm.subset (by simp)
    obtain ⟨j, hj, hjget⟩ := List.getElem_of_mem hmem
    refine ⟨j :: p, t, tb, ?_, h2, h3⟩
    simp [routeItem.addChildren, routeItem.setChildren, routeItem.nodeAt,
      List.getElem?_eq_getElem hj, hjget, h1]

theorem addLoop_no_children (nodes : List node) (parent res : Pointer)
    (idx matchedIdx mi : Nat) (hc : parent.item.children = [])
    (h : addLoop parent idx matchedIdx nodes = some (res, mi)) : res = parent := by
  induction nodes generalizing idx matchedIdx with
  | nil => simp [addLoop] at h; exact h.1.symm
  | cons n rest ih =>
    unfold addLoop at h
    cases hm : parent.item.matches n with
    | none => simp [hm] at h
    | some b =>
      cases b with
      | true => simp only [hm] at h; exact ih _ _ h
      | false =>
        simp [hm, hc, scanChildren] at h
        exact h.1.symm

theorem first_Add_entry (E : Env) (api : API) (seed : Nat) (r1 : Route)
    (h1 : Add E NewRoute api seed = some (r1, none)) :
    ∃ path t tb, r1.root.nodeAt path = some t ∧ t.apis = some tb ∧
      tb.lookup api.Method = some api.ID := by
  obtain ⟨parsed, parent, mi, hp, hw, hcase⟩ := Add_ok_cases E NewRoute r1 api seed h1
  have hpar := addLoop_no_children _ ⟨[], NewRoute.root⟩ _ _ _ _ rfl hw
  subst hpar
  rcases hcase with ⟨_, rfl, _⟩ | ⟨_, rfl⟩
  · exact ⟨[], _, _, rfl, rfl, lookup_mapSet_self _ _ _⟩
  · exact addChildren_entry E _ _ _ _

theorem addLoop_stop (nodes : List node) (parent res : Pointer) (idx matchedIdx mi : Nat)
    (h : addLoop parent idx matchedIdx nodes = some (res, mi)) :
    (mi + 1 = idx + nodes.length ∧ nodes ≠ []) ∨
    (nodes = [] ∧ mi = matchedIdx ∧ res = parent) ∨
    (∃ k n, nodes[k]? = some n ∧ res.item.matches n = some false ∧
      (∀ c ∈ res.item.children, c.matches n = some false) ∧
      ((k = 0 ∧ mi = matchedIdx ∧ res = parent) ∨ (0 < k ∧ mi + 1 = idx + k))) := by
  induction nodes generalizing parent idx matchedIdx with
  | nil =>
    simp [addLoop] at h
    exact Or.inr (Or.inl ⟨rfl, h.2.symm, h.1.symm⟩)
  | cons n rest ih =>
    have step : ∀ (q : Pointer), addLoop q (idx + 1) idx rest = some (res, mi) →
        (mi + 1 = idx + (n :: rest).length ∧ n :: rest ≠ []) ∨
        (∃ k n', (n :: rest)[k]? = some n' ∧ res.item.matches n' = some false ∧
          (∀ c ∈ res.item.children, c.matches n' = some false) ∧ (0 < k ∧ mi + 1 = idx + k)) := by
      intro q hq
      rcases ih q (idx + 1) idx hq with ⟨h1, _⟩ | ⟨h1, h2, _⟩ | ⟨k, n', h1, h2, h3, h4⟩
      · left; exact ⟨by simp; omega, by simp⟩
      · left; subst h1; exact ⟨by simp; omega, by simp⟩
      · right
        refine ⟨k + 1, n', by simpa using h1, h2, h3, by omega, ?_⟩
        rcases h4 with ⟨rfl, h5, _⟩ | ⟨_, h5⟩ <;> omega
    unfold addLoop at h
    cases hm : parent.item.matches n with
    | none => simp [hm] at h
    | some b =>
      cases b with
      | true =>
        simp only [hm] at h
        rcases step parent h with h1 | ⟨k, n', h1, h2, h3, h4⟩
        · exact Or.inl h1
        · exact Or.inr (Or.inr ⟨k, n', h1, h2, h3, Or.inr h4⟩)
      | false =>
        simp only [hm] at h
        cases hs : scanChildren (fun item => item.matches n) 0 parent.item.children with
        | none => simp [hs] at h
        | some o =>
          cases o with
          | none =>
            simp [hs] at h
            obtain ⟨rfl, rfl⟩ := h
            exact Or.inr (Or.inr ⟨0, n, by simp, hm, scanChildren_none _ _ _ hs,
              Or.inl ⟨rfl, rfl, rfl⟩⟩)
          | some ic =>
            obtain ⟨i, c⟩ := ic
            simp only [hs] at h
            rcases step _ h with h1 | ⟨k, n', h1, h2, h3, h4⟩
            · exact Or.inl h1
            · exact Or.inr (Or.inr ⟨k, n', h1, h2, h3, Or.inr h4⟩)

theorem matches_false_distinct (c : routeItem) (n : node) (h : c.matches n = some false) :
    node.Distinct c.node n := by
  unfold routeItem.matches at h
  by_cases hne : c.node.nt ≠ n.nt
  · exact Or.inl hne
  · rw [if_neg hne] at h
    have heq : c.node.nt = n.nt := not_not.mp hne
    split at h
    · simp at h
    · split at h
      · simp at h
      · split at h
        · simp at h
        · split at h
          · rename_i hc
            right
            exact ⟨hc, heq ▸ hc, by simpa using h⟩
          · split at h <;> simp at h

theorem distinct_matches_false (a : routeItem) (n : node) (h : node.Distinct a.node n) :
    a.matches n = some false := by
  unfold routeItem.matches
  rcases h with h | ⟨h1, h2, h3⟩
  · rw [if_pos h]
  · simp [h1, h2, h3]

theorem node.Distinct.symm {a b : node} (h : node.Distinct a b) : node.Distinct b a := by
  rcases h with h | ⟨h1, h2, h3⟩
  · exact Or.inl (Ne.symm h)
  · exact Or.inr ⟨h2, h1, Ne.symm h3⟩

theorem addChildren_node (E : Env) (id : Nat) (m : String) (nodes : List node)
    (x : routeItem) : (routeItem.addChildren E id m nodes x).node = x.node := by
  cases nodes <;> rfl

theorem every_distinct_fresh (E : Env) (id : Nat) (m : String) (nodes : List node)
    (hns : ∀ n ∈ nodes, n.nt ≠ slashType) (n : node) :
    (routeItem.addChildren E id m nodes (routeItem.mk n [] none)).Every
      routeItem.DistinctChildren := by
  induction nodes generalizing n with
  | nil =>
    simp only [routeItem.addChildren, routeItem.setApis, routeItem.children_mk]
    exact routeItem.Every.intro _ ⟨by simp, by simp⟩ (by simp)
  | cons a rest ih =>
    simp only [routeItem.addChildren, routeItem.setChildren, routeItem.children_mk,
      List.nil_append, sortSlice_singleton]
    refine routeItem.Every.intro _ ⟨by simp, ?_⟩ ?_
    · intro c hc
      simp only [routeItem.children_mk, List.mem_singleton] at hc
      subst hc
      rw [addChildren_node]
      exact hns a (by simp)
    · intro c hc
      simp only [routeItem.children_mk, List.mem_singleton] at hc
      subst hc
      exact ih (fun n hn => hns n (List.mem_cons_of_mem _ hn)) a

theorem every_distinct_addChildren (E : Env) (id : Nat) (m : String) (n : node)
    (rest : List node) (hns : ∀ a ∈ n :: rest, a.nt ≠ slashType) (x : routeItem)
    (hx : x.Every routeItem.DistinctChildren)
    (hnew : ∀ c ∈ x.children, c.matches n = some false) :
    (routeItem.addChildren E id m (n :: rest) x).Every routeItem.DistinctChildren := by
  simp only [routeItem.addChildren, routeItem.setChildren]
  have hp := E.sortSlice_perm
    (x.children ++ [routeItem.addChildren E id m rest (routeItem.mk n [] none)])
  refine routeItem.Every.intro _ ⟨?_, ?_⟩ ?_
  · simp only [routeItem.children_mk]
    refine (hp.pairwise_iff ?_).mpr ?_
    · intro a b hab
      exact hab.symm
    · rw [List.pairwise_append]
      refine ⟨hx.here.1, by simp, ?_⟩
      intro a ha b hb
      rw [List.mem_singleton] at hb
      subst hb
      rw [addChildren_node]
      exact matches_false_distinct a n (hnew a ha)
  · intro c hc
    simp only [routeItem.children_mk] at hc
    rcases List.mem_append.mp (hp.subset hc) with h1 | h1
    · exact hx.here.2 c h1
    · rw [List.mem_singleton] at h1
      subst h1
      rw [addChildren_node]
      exact hns n (by simp)
  · intro c hc
    simp only [routeItem.children_mk] at hc
    rcases List.mem_append.mp (hp.subset hc) with h1 | h1
    · exact hx.child c h1
    · rw [List.mem_singleton] at h1
      subst h1
      exact every_distinct_fresh E id m rest (fun a ha => hns a (List.mem_cons_of_mem _ ha)) n

theorem root_node_of_reachable (E : Env) (P : API → Prop) (r : Route)
    (h : ReachableBy E P r) : r.root.node = NewRoute.root.node := by
  induction h with
  | new => rfl
  | @add r r' api seed err _ _ hadd ih =>
    rcases Add_cases _ _ _ _ _ _ hadd with rfl | ⟨path, t, rfl⟩ | ⟨path, nodes, rfl⟩
    · exact ih
    · rw [← ih]
      exact updateAt_node (fun p => p.setApis t) (fun x => rfl) path r.root
    · rw [← ih]
      exact updateAt_node (fun p => p.addChildren E api.ID api.Method nodes)
        (fun x => addChildren_node E _ _ nodes x) path r.root

theorem removeSlash_tail_not_slash (p : List node) (k : Nat) (hk : 0 < k) :
    ∀ n ∈ (removeSlash p).drop k, n.nt ≠ slashType := by
  intro n hn
  cases p with
  | nil => simp [removeSlash, removeSlashFrom] at hn
  | cons a t =>
    rw [removeSlash_cons] at hn
    obtain ⟨j, rfl⟩ : ∃ j, k = j + 1 := ⟨k - 1, by omega⟩
    rw [List.drop_succ_cons] at hn
    have := (List.mem_filter.mp (List.mem_of_mem_drop hn)).2
    simpa using this

theorem every_distinct_of_reachable (E : Env) (r : Route)
    (h : ReachableBy E API.leadingSlash r) : r.root.Every routeItem.DistinctChildren := by
  induction h with
  | new =>
    exact routeItem.Every.intro _ ⟨by simp [NewRoute], by simp [NewRoute]⟩ (by simp [NewRoute])
  | @add r r' api seed err hr hls hadd ih =>
    cases err with
    | some e =>
      rw [Add_err_route E r r' api seed e hadd]
      exact ih
    | none =>
      obtain ⟨parsed, parent, mi, hp, hw, hcase⟩ := Add_ok_cases E r r' api seed hadd
      have hptr := addLoop_pointer r.root _ ⟨[], r.root⟩ _ _ _ _ rfl hw
      have hcong : ∀ (t : routeItem) (cs : List routeItem), t.DistinctChildren →
          cs.map routeItem.node = t.children.map routeItem.node →
          (t.setChildren cs).DistinctChildren := by
        intro t cs ht hm
        have e1 : ∀ l : List routeItem,
            l.Pairwise (fun a b => node.Distinct a.node b.node) ↔
              (l.map routeItem.node).Pairwise node.Distinct := fun l => List.pairwise_map.symm
        have e2 : ∀ l : List routeItem, (∀ c ∈ l, c.node.nt ≠ slashType) ↔
            ∀ n ∈ l.map routeItem.node, n.nt ≠ slashType := by
          intro l; simp
        unfold routeItem.DistinctChildren at ht ⊢
        simp only [routeItem.setChildren, routeItem.children_mk]
        rw [e1, e2] at ht ⊢
        rw [hm]
        exact ht
      rcases hcase with ⟨_, rfl, _⟩ | ⟨hlt, rfl⟩
      · refine every_updateAt (fun p => p.setApis
          (mapSet (parent.item.apis.getD []) api.Method api.ID)) (fun x => rfl) ?_ hcong _ _ ih
        intro x hex
        exact routeItem.Every.intro _ hex.here hex.child
      · refine every_updateAt_at (fun p => p.addChildren E api.ID api.Method
          ((removeSlash parsed).drop (mi + 1))) (fun x => addChildren_node E _ _ _ x)
          hcong _ _ ih ?_
        intro x hx hex
        rw [hptr] at hx
        cases hx
        obtain ⟨a, t, rfl, ha⟩ := hls parsed hp
        rcases addLoop_stop _ _ _ _ _ _ hw with ⟨h1, _⟩ | ⟨h1, _⟩ | ⟨k, n, h1, h2, h3, h4⟩
        · omega
        · simp [removeSlash_cons] at h1
        · rcases h4 with ⟨rfl, _, hres⟩ | ⟨hk, hmi⟩
          · exfalso
            subst hres
            rw [removeSlash_cons] at h1
            simp only [List.getElem?_cons_zero, Option.some.injEq] at h1
            subst h1
            have hroot := root_node_of_reachable E _ r hr
            have : r.root.matches a = some true := by
              unfold routeItem.matches
              simp [hroot, NewRoute, ha]
            simp only at h2
            rw [this] at h2
            cases h2
          · have hk2 : mi + 1 = k := by omega
            rw [hk2]
            have hdrop : (removeSlash (a :: t)).drop k =
                n :: (removeSlash (a :: t)).drop (k + 1) := by
              obtain ⟨hlt2, hget⟩ := List.getElem?_eq_some.mp h1
              rw [← hget]
              exact List.drop_eq_getElem_cons hlt2
            have hns := removeSlash_tail_not_slash (a :: t) k hk
            rw [hdrop] at hns ⊢
            exact every_distinct_addChildren E _ _ n _ hns _ hex h3

theorem filter_kind_le_one (l : List routeItem) (k : Nat) (hk : k ≠ constType)
    (h : l.Pairwise (fun a b => node.Distinct a.node b.node)) :
    (l.filter (fun c => decide (c.node.nt = k))).length ≤ 1 := by
  induction l with
  | nil => simp
  | cons a l ih =>
    rw [List.pairwise_cons] at h
    by_cases ha : a.node.nt = k
    · have hnone : l.filter (fun c => decide (c.node.nt = k)) = [] := by
        rw [List.filter_eq_nil_iff]
        intro b hb
        rcases h.1 b hb with h1 | ⟨h1, _, _⟩
        · simpa [ha] using Ne.symm h1
        · exact absurd (ha ▸ h1) hk
      simp [List.filter_cons, ha, hnone]
    · simp only [List.filter_cons, ha, decide_False]
      exact ih h.2

theorem const_values_nodup (l : List routeItem)
    (h : l.Pairwise (fun a b => node.Distinct a.node b.node)) :
    ((l.filter (fun c => decide (c.node.nt = constType))).map
      (fun c => c.node.value)).Nodup := by
  induction l with
  | nil => simp
  | cons a l ih =>
    rw [List.pairwise_cons] at h
    by_cases ha : a.node.nt = constType
    · simp only [List.filter_cons, ha, decide_True, if_true, List.map_cons, List.nodup_cons]
      refine ⟨?_, ih h.2⟩
      intro hmem
      obtain ⟨b, hb, hv⟩ := List.mem_map.mp hmem
      obtain ⟨hb1, hb2⟩ := List.mem_filter.mp hb
      rcases h.1 b hb1 with h1 | ⟨_, _, h3⟩
      · exact h1 (by rw [ha]; exact (of_decide_eq_true hb2).symm)
      · exact h3 hv.symm
    · simp only [List.filter_cons, ha, decide_False]
      exact ih h.2

/-- C17: sibling uniqueness. In every route reachable from `NewRoute()` by `Add` calls
whose tokenized patterns begin with a `Slash` segment, no two children of a node are
StructuralEquals (`matches` of one on the segment of the other is false): a node has at
most one child of each kind other than `Const`, its `Const` children have pairwise
different literals, and none of its children is a `Slash`. -/
theorem siblings_distinct (E : Env) (r : Route) (h : ReachableBy E API.leadingSlash r)
    (path : List Nat) (t : routeItem) (ht : r.root.nodeAt path = some t) :
    t.children.Pairwise (fun a b => a.matches b.node = some false) ∧
    (∀ k, k ≠ constType →
      (t.children.filter (fun c => decide (c.node.nt = k))).length ≤ 1) ∧
    ((t.children.filter (fun c => decide (c.node.nt = constType))).map
      (fun c => c.node.value)).Nodup ∧
    (∀ c ∈ t.children, c.node.nt ≠ slashType) := by
  have hd : t.DistinctChildren :=
    every_nodeAt path r.root t (every_distinct_of_reachable E r h) ht
  refine ⟨hd.1.imp (fun {a b} hab => distinct_matches_false a b.node hab),
    fun k hk => filter_kind_le_one _ k hk hd.1, const_values_nodup _ hd.1, hd.2⟩

theorem forall₂_extends_refl (l : List routeItem) : List.Forall₂ routeItem.Extends l l := by
  induction l with
  | nil => exact List.Forall₂.nil
  | cons a l ih => exact List.Forall₂.cons (routeItem.Extends.refl a) ih

theorem forall₂_extends_modifyNth (g : routeItem → routeItem) (i : Nat) (l : List routeItem)
    (h : ∀ c0, l[i]? = some c0 → c0.Extends (g c0)) :
    List.Forall₂ routeItem.Extends l (modifyNth g i l) := by
  induction l generalizing i with
  | nil => simp [modifyNth]
  | cons a l ih =>
    cases i with
    | zero => exact List.Forall₂.cons (h a (by simp)) (forall₂_extends_refl l)
    | succ i =>
      exact List.Forall₂.cons (routeItem.Extends.refl a)
        (ih i (fun c0 hc0 => h c0 (by simpa using hc0)))

theorem extends_updateAt (f : routeItem → routeItem) (p : List Nat) (t : routeItem)
    (hf : ∀ x, t.nodeAt p = some x → x.Extends (f x)) :
    t.Extends (routeItem.updateAt f p t) := by
  induction p generalizing t with
  | nil => exact hf t rfl
  | cons i p ih =>
    simp only [routeItem.updateAt]
    refine routeItem.Extends.grow t _ (modifyNth (routeItem.updateAt f p) i t.children) []
      rfl (fun tb htb => ⟨tb, htb, fun _ _ h => h⟩) ?_ (by simp [routeItem.setChildren])
    apply forall₂_extends_modifyNth
    intro c0 hc0
    apply ih
    intro x hx
    apply hf
    simp [routeItem.nodeAt, hc0, hx]

theorem lookup_append_some (t u : List (String × Nat)) (k : String) (v : Nat)
    (h : t.lookup k = some v) : (t ++ u).lookup k = some v := by
  induction t with
  | nil => simp [List.lookup] at h
  | cons e t ih =>
    obtain ⟨k1, v1⟩ := e
    by_cases hk : k = k1
    · subst hk
      simp [List.lookup] at h ⊢
      exact h
    · have hb : (k == k1) = false := by simpa using hk
      simp [List.lookup, hb] at h ⊢
      exact ih h

theorem extends_setApis (x : routeItem) (m : String) (id : Nat)
    (hm : ∀ t, x.apis = some t → m ∉ t.map Prod.fst) :
    x.Extends (x.setApis (mapSet (x.apis.getD []) m id)) := by
  refine routeItem.Extends.grow x _ x.children [] rfl ?_ (forall₂_extends_refl _)
    (by simp [routeItem.setApis])
  intro tb htb
  refine ⟨_, rfl, ?_⟩
  intro k v hkv
  rw [htb, Option.getD_some, mapSet_of_not_mem tb m id (hm tb htb)]
  exact lookup_append_some tb _ k v hkv

theorem extends_addChildren (E : Env) (id : Nat) (m : String) (n : node)
    (rest : List node) (x : routeItem) :
    x.Extends (routeItem.addChildren E id m (n :: rest) x) := by
  refine routeItem.Extends.grow x _ x.children
    [routeItem.addChildren E id m rest (routeItem.mk n [] none)] rfl
    (fun tb htb => ⟨tb, htb, fun _ _ h => h⟩) (forall₂_extends_refl _) ?_
  simp only [routeItem.addChildren, routeItem.setChildren, routeItem.children_mk]
  exact E.sortSlice_perm _

theorem routeItem.Extends.node_eq {t t' : routeItem} (h : t.Extends t') :
    t'.node = t.node := by
  cases h with
  | refl => rfl
  | grow _ _ _ _ hnode _ _ _ => exact hnode

theorem routeItem.Extends.entries {t t' : routeItem} (h : t.Extends t') :
    ∀ tb, t.apis = some tb → ∃ tb', t'.apis = some tb' ∧
      ∀ k v, tb.lookup k = some v → tb'.lookup k = some v := by
  cases h with
  | refl => exact fun tb htb => ⟨tb, htb, fun _ _ h => h⟩
  | grow _ _ _ _ _ hap _ _ => exact hap

theorem extends_nodeAt (p : List Nat) (t t' x : routeItem) (h : t.Extends t')
    (hx : t.nodeAt p = some x) :
    ∃ p' : List Nat, p'.length = p.length ∧ ∀ k y, t.nodeAt (p.take k) = some y →
      ∃ y', t'.nodeAt (p'.take k) = some y' ∧ y.Extends y' := by
  induction p generalizing t t' with
  | nil =>
    refine ⟨[], rfl, ?_⟩
    intro k y hy
    simp only [List.take_nil, routeItem.nodeAt, Option.some.injEq] at hy ⊢
    subst hy
    exact ⟨t', rfl, h⟩
  | cons i p ih =>
    simp only [routeItem.nodeAt] at hx
    cases hc : t.children[i]? with
    | none => simp [hc] at hx
    | some c =>
      simp only [hc, Option.some_bind] at hx
      have h0 := h
      cases h with
      | refl =>
        exact ⟨i :: p, rfl, fun k y hy => ⟨y, hy, routeItem.Extends.refl y⟩⟩
      | grow _ _ cs extra hnode hap hch hperm =>
        obtain ⟨hlt, hget⟩ := List.getElem?_eq_some.mp hc
        have hlen := hch.length_eq
        have hlt2 : i < cs.length := hlen ▸ hlt
        have hext : c.Extends cs[i] := by
          have := List.forall₂_iff_get.mp hch
          have h2 := this.2 i hlt hlt2
          simpa [hget] using h2
        have hmem : cs[i] ∈ t'.children :=
          hperm.symm.subset (List.mem_append_left _ (List.getElem_mem hlt2))
        obtain ⟨j, hj, hjget⟩ := List.getElem_of_mem hmem
        obtain ⟨p', hl, hn⟩ := ih c cs[i] hext hx
        refine ⟨j :: p', by simp [hl], ?_⟩
        intro k y hy
        cases k with
        | zero =>
          simp only [List.take_zero, routeItem.nodeAt, Option.some.injEq] at hy ⊢
          subst hy
          exact ⟨t', rfl, h0⟩
        | succ k =>
          simp only [List.take_succ_cons, routeItem.nodeAt, hc, Option.some_bind] at hy
          obtain ⟨y', hy1, hy2⟩ := hn k y hy
          refine ⟨y', ?_, hy2⟩
          simp [routeItem.nodeAt, List.getElem?_eq_getElem hj, hjget, hy1]

/-- C11, amended: the tree only grows. For every route reachable by `Add` calls with
non-zero identifiers and every further `Add` call that returns, the tree after the call
is the tree before it grown: every node is still there under the same parent, all the
way up to the root, with its segment unchanged, and every method-table entry is still
there with the same identifier, next to newly created children and newly added entries.
The index of a node among its siblings is not kept: the children are sorted again
whenever one is added. -/
theorem Add_append_only (E : Env) (r r' : Route) (api : API) (seed : Nat)
    (err : Option AddError) (h : ReachableBy E (fun api => api.ID ≠ 0) r)
    (hadd : Add E r api seed = some (r', err)) :
    r.root.Extends r'.root ∧
    ∀ path x, r.root.nodeAt path = some x →
      ∃ path' : List Nat, path'.length = path.length ∧
        ∀ k y, r.root.nodeAt (path.take k) = some y →
          ∃ y', r'.root.nodeAt (path'.take k) = some y' ∧ y'.node = y.node ∧
            ∀ tb, y.apis = some tb → ∃ tb', y'.apis = some tb' ∧
              ∀ key v, tb.lookup key = some v → tb'.lookup key = some v := by
  have hext : r.root.Extends r'.root := by
    cases err with
    | some e =>
      rw [Add_err_route E r r' api seed e hadd]
      exact routeItem.Extends.refl _
    | none =>
      obtain ⟨parsed, parent, mi, hp, hw, hcase⟩ := Add_ok_cases E r r' api seed hadd
      have hptr := addLoop_pointer r.root _ ⟨[], r.root⟩ _ _ _ _ rfl hw
      have hok : parent.item.TableOK :=
        every_nodeAt _ _ _ (every_tableOK_of_reachable E r h) hptr
      rcases hcase with ⟨_, rfl, hc⟩ | ⟨hlt, rfl⟩
      · apply extends_updateAt
        intro x hx
        rw [hptr] at hx
        cases hx
        apply extends_setApis
        intro t ht hm
        exact (mapIndex_ne_zero_iff t (hok t ht).2.1 api.Method).mpr hm (hc t ht).2.2
      · apply extends_updateAt
        intro x _
        cases hd : (removeSlash parsed).drop (mi + 1) with
        | nil =>
          have := congrArg List.length hd
          simp at this
          omega
        | cons n rest => exact extends_addChildren E _ _ n rest x
  refine ⟨hext, ?_⟩
  intro path x hx
  obtain ⟨p', hl, hn⟩ := extends_nodeAt path r.root r'.root x hext hx
  refine ⟨p', hl, ?_⟩
  intro k y hy
  obtain ⟨y', h1, h2⟩ := hn k y hy
  exact ⟨y', h1, h2.node_eq, h2.entries⟩

/-- C11 as stated fails: in the route holding `/users/:id`, the `String` node is child 0
of `users`; after `/users/me` is added, child 0 of `users` is the literal `me` and the
`String` node is child 1. -/
theorem Add_moves_sibling_index :
    ReachableBy goEnv (fun api => api.ID ≠ 0)
      ⟨routeItem.mk slashSeg [routeItem.mk (constSeg "users")
        [routeItem.mk (stringSeg "id") [] (some [("GET", 1)])] none] none⟩ ∧
    Add goEnv ⟨routeItem.mk slashSeg [routeItem.mk (constSeg "users")
        [routeItem.mk (stringSeg "id") [] (some [("GET", 1)])] none] none⟩
      ⟨2, Except.ok [slashSeg, constSeg "users", constSeg "me"], "GET"⟩ 0 =
      some (⟨routeItem.mk slashSeg [routeItem.mk (constSeg "users")
        [routeItem.mk (constSeg "me") [] (some [("GET", 2)]),
          routeItem.mk (stringSeg "id") [] (some [("GET", 1)])] none] none⟩, none) ∧
    ((routeItem.mk slashSeg [routeItem.mk (constSeg "users")
        [routeItem.mk (stringSeg "id") [] (some [("GET", 1)])] none] none).nodeAt [0, 0]).map
      routeItem.node = some (stringSeg "id") ∧
    ((routeItem.mk slashSeg [routeItem.mk (constSeg "users")
        [routeItem.mk (constSeg "me") [] (some [("GET", 2)]),
          routeItem.mk (stringSeg "id") [] (some [("GET", 1)])] none] none).nodeAt [0, 0]).map
      routeItem.node = some (constSeg "me") ∧
    constSeg "me" ≠ stringSeg "id" :=
  ⟨ReachableBy.add ReachableBy.new (by decide : (1 : Nat) ≠ 0)
      (rfl : Add goEnv NewRoute ⟨1, Except.ok [slashSeg, constSeg "users", stringSeg "id"],
        "GET"⟩ 0 = some (_, none)),
    rfl, rfl, rfl, by decide⟩

/-- C11 at the route holding `/users/:id` and the call adding `/users/me`. -/
theorem Add_append_only_users :
    (routeItem.mk slashSeg [routeItem.mk (constSeg "users")
        [routeItem.mk (stringSeg "id") [] (some [("GET", 1)])] none] none).Extends
      (routeItem.mk slashSeg [routeItem.mk (constSeg "users")
        [routeItem.mk (constSeg "me") [] (some [("GET", 2)]),
          routeItem.mk (stringSeg "id") [] (some [("GET", 1)])] none] none) :=
  (Add_append_only goEnv
    ⟨routeItem.mk slashSeg [routeItem.mk (constSeg "users")
      [routeItem.mk (stringSeg "id") [] (some [("GET", 1)])] none] none⟩
    ⟨routeItem.mk slashSeg [routeItem.mk (constSeg "users")
      [routeItem.mk (constSeg "me") [] (some [("GET", 2)]),
        routeItem.mk (stringSeg "id") [] (some [("GET", 1)])] none] none⟩
    ⟨2, Except.ok [slashSeg, constSeg "users", constSeg "me"], "GET"⟩ 0 none
    (ReachableBy.add ReachableBy.new (by decide : (1 : Nat) ≠ 0)
      (rfl : Add goEnv NewRoute ⟨1, Except.ok [slashSeg, constSeg "users", stringSeg "id"],
        "GET"⟩ 0 = some (_, none)))
    rfl).1

/-- C14 at the route holding `/users/:id`: the lookup of `/users/x` does not abort. -/
theorem fatal_branch_unreachable_users :
    Find goEnv ⟨routeItem.mk slashSeg [routeItem.mk (constSeg "users")
        [routeItem.mk (stringSeg "id") [] (some [("GET", 1)])] none] none⟩
      (Except.ok [slashSeg, constSeg "users", constSeg "x"]) "GET" recordParams [] ≠ none :=
  (fatal_branch_unreachable goEnv
    ⟨routeItem.mk slashSeg [routeItem.mk (constSeg "users")
      [routeItem.mk (stringSeg "id") [] (some [("GET", 1)])] none] none⟩
    (ReachableBy.add ReachableBy.new
      (fun p hp => by
        cases hp
        intro n hn
        simp at hn
        rcases hn with rfl | rfl | rfl <;> simp [validKind, slashSeg, constSeg, stringSeg])
      (rfl : Add goEnv NewRoute ⟨1, Except.ok [slashSeg, constSeg "users", stringSeg "id"],
        "GET"⟩ 0 = some (_, none)))).2.2.2
    (Except.ok [slashSeg, constSeg "users", constSeg "x"]) "GET" _ recordParams []

/-- C16 at the route holding `/a` under `*` with identifier 7: the table of the node `a`
is the single entry `*`. -/
theorem wildcard_exclusive_star :
    (routeItem.mk (constSeg "a") [] (some [("*", 7)])).apis = none ∨
      (∃ w, w ≠ 0 ∧ (routeItem.mk (constSeg "a") [] (some [("*", 7)])).apis
        = some [("*", w)]) ∨
      (∃ tb, (routeItem.mk (constSeg "a") [] (some [("*", 7)])).apis = some tb ∧ tb ≠ [] ∧
        "*" ∉ tb.map Prod.fst) :=
  (wildcard_exclusive goEnv
    ⟨routeItem.mk slashSeg [routeItem.mk (constSeg "a") [] (some [("*", 7)])] none⟩
    (ReachableBy.add ReachableBy.new (by decide : (7 : Nat) ≠ 0)
      (rfl : Add goEnv NewRoute ⟨7, Except.ok [slashSeg, constSeg "a"], "*"⟩ 0
        = some (_, none)))
    [0] _ rfl).1

/-- C17 at the route holding `/users/:id` and `/users/me`: the two children of `users`
are not StructuralEquals and neither is a `Slash`. -/
theorem siblings_distinct_users :
    (routeItem.mk (constSeg "users") [routeItem.mk (constSeg "me") [] (some [("GET", 2)]),
      routeItem.mk (stringSeg "id") [] (some [("GET", 1)])] none).children.Pairwise
      (fun a b => a.matches b.node = some false) ∧
    (∀ c ∈ (routeItem.mk (constSeg "users")
      [routeItem.mk (constSeg "me") [] (some [("GET", 2)]),
        routeItem.mk (stringSeg "id") [] (some [("GET", 1)])] none).children,
      c.node.nt ≠ slashType) :=
  ⟨(siblings_distinct goEnv
      ⟨routeItem.mk slashSeg [routeItem.mk (constSeg "users")
        [routeItem.mk (constSeg "me") [] (some [("GET", 2)]),
          routeItem.mk (stringSeg "id") [] (some [("GET", 1)])] none] none⟩
      (ReachableBy.add
        (ReachableBy.add ReachableBy.new
          (fun p hp => by cases hp; exact ⟨_, _, rfl, rfl⟩)
          (rfl : Add goEnv NewRoute ⟨1, Except.ok [slashSeg, constSeg "users",
            stringSeg "id"], "GET"⟩ 0 = some (⟨routeItem.mk slashSeg
              [routeItem.mk (constSeg "users")
                [routeItem.mk (stringSeg "id") [] (some [("GET", 1)])] none] none⟩, none)))
        (fun p hp => by cases hp; exact ⟨_, _, rfl, rfl⟩)
        (rfl : Add goEnv ⟨routeItem.mk slashSeg [routeItem.mk (constSeg "users")
            [routeItem.mk (stringSeg "id") [] (some [("GET", 1)])] none] none⟩
          ⟨2, Except.ok [slashSeg, constSeg "users", constSeg "me"], "GET"⟩ 0
          = some (_, none)))
      [0] _ rfl).1,
    (siblings_distinct goEnv
      ⟨routeItem.mk slashSeg [routeItem.mk (constSeg "users")
        [routeItem.mk (constSeg "me") [] (some [("GET", 2)]),
          routeItem.mk (stringSeg "id") [] (some [("GET", 1)])] none] none⟩
      (ReachableBy.add
        (ReachableBy.add ReachableBy.new
          (fun p hp => by cases hp; exact ⟨_, _, rfl, rfl⟩)
          (rfl : Add goEnv NewRoute ⟨1, Except.ok [slashSeg, constSeg "users",
            stringSeg "id"], "GET"⟩ 0 = some (⟨routeItem.mk slashSeg
              [routeItem.mk (constSeg "users")
                [routeItem.mk (stringSeg "id") [] (some [("GET", 1)])] none] none⟩, none)))
        (fun p hp => by cases hp; exact ⟨_, _, rfl, rfl⟩)
        (rfl : Add goEnv ⟨routeItem.mk slashSeg [routeItem.mk (constSeg "users")
            [routeItem.mk (stringSeg "id") [] (some [("GET", 1)])] none] none⟩
          ⟨2, Except.ok [slashSeg, constSeg "users", constSeg "me"], "GET"⟩ 0
          = some (_, none)))
      [0] _ rfl).2.2.2⟩

theorem modifyNth_getElem? {α : Type} (g : α → α) (i j : Nat) (l : List α) :
    (modifyNth g i l)[j]? = if j = i then l[j]?.map g else l[j]? := by
  induction l generalizing i j with
  | nil => simp [modifyNth]
  | cons a l ih =>
    cases i with
    | zero =>
      cases j with
      | zero => simp [modifyNth]
      | succ j => simp [modifyNth]
    | succ i =>
      cases j with
      | zero => simp [modifyNth]
      | succ j => simp [modifyNth, ih]

theorem nodeAt_updateAt (f : routeItem → routeItem) (p : List Nat) (t x : routeItem)
    (h : t.nodeAt p = some x) : (routeItem.updateAt f p t).nodeAt p = some (f x) := by
  induction p generalizing t with
  | nil =>
    simp only [routeItem.nodeAt, Option.some.injEq] at h
    subst h
    rfl
  | cons i p ih =>
    simp only [routeItem.nodeAt] at h
    cases hc : t.children[i]? with
    | none => simp [hc] at h
    | some c =>
      simp only [hc, Option.some_bind] at h
      simp only [routeItem.updateAt, routeItem.nodeAt, routeItem.setChildren,
        routeItem.children_mk, modifyNth_getElem?, if_true, hc, Option.map_some',
        Option.some_bind]
      exact ih c h

theorem nodeAt_updateAt_setApis (tb : List (String × Nat)) (p q : List Nat)
    (t x : routeItem) (h : t.nodeAt q = some x) (hne : q ≠ p) :
    ∃ x', (routeItem.updateAt (fun y => y.setApis tb) p t).nodeAt q = some x' ∧
      x'.node = x.node ∧ x'.apis = x.apis ∧
      x'.children.map routeItem.node = x.children.map routeItem.node := by
  induction q generalizing p t with
  | nil =>
    simp only [routeItem.nodeAt, Option.some.injEq] at h
    subst h
    cases p with
    | nil => exact absurd rfl hne
    | cons i p =>
      refine ⟨_, rfl, rfl, rfl, ?_⟩
      simp only [routeItem.updateAt, routeItem.setChildren, routeItem.children_mk]
      exact map_modifyNth _ _
        (updateAt_node (fun y => y.setApis tb) (fun _ => rfl) p) i _
  | cons j q ih =>
    simp only [routeItem.nodeAt] at h
    cases hc : t.children[j]? with
    | none => simp [hc] at h
    | some c =>
      simp only [hc, Option.some_bind] at h
      cases p with
      | nil =>
        refine ⟨x, ?_, rfl, rfl, rfl⟩
        simp [routeItem.updateAt, routeItem.setApis, routeItem.nodeAt, hc, h]
      | cons i p =>
        by_cases hji : j = i
        · subst hji
          have hqp : q ≠ p := fun e => hne (by rw [e])
          obtain ⟨x', h1, h2, h3, h4⟩ := ih p c h hqp
          refine ⟨x', ?_, h2, h3, h4⟩
          simp only [routeItem.updateAt, routeItem.nodeAt, routeItem.setChildren,
            routeItem.children_mk, modifyNth_getElem?, if_true, hc, Option.map_some',
            Option.some_bind]
          exact h1
        · refine ⟨x, ?_, rfl, rfl, rfl⟩
          simp only [routeItem.updateAt, routeItem.nodeAt, routeItem.setChildren,
            routeItem.children_mk, modifyNth_getElem?, if_neg hji, hc, Option.some_bind]
          exact h

theorem lookup_append_single (t : List (String × Nat)) (m : String) (id : Nat)
    (hm : m ∉ t.map Prod.fst) (k : String) :
    (t ++ [(m, id)]).lookup k = if k = m then some id else t.lookup k := by
  induction t with
  | nil =>
    by_cases hk : k = m
    · subst hk; simp [List.lookup]
    · have hb : (k == m) = false := by simpa using hk
      simp [List.lookup, hb, hk]
  | cons e t ih =>
    obtain ⟨k1, v1⟩ := e
    have hm1 : m ≠ k1 := fun h => hm (by simp [h])
    have hm2 : m ∉ t.map Prod.fst := fun h => hm (by simp at h ⊢; exact Or.inr h)
    by_cases hk : k = k1
    · subst hk
      have : ¬ k = m := fun h => hm1 h.symm
      simp [List.lookup, this]
    · have hb : (k == k1) = false := by simpa using hk
      simp only [List.cons_append, List.lookup, hb]
      exact ih hm2

/-- C4: the conflict rules of the method table. When the walk of `Add` ends with the whole
pattern consumed (`matchedIdx == len(nodes)-1`) on a node whose table `t` is present and
holds only non-zero identifiers, `Add` returns an error exactly when the method is `*`
and `t` is non-empty, or `t` has a `*` entry, or `t` has an entry for the method. The
three cases are taken in that order: in the first the error names an identifier stored
in `t`, else in the second it names `t["*"]`, else in the third it names `t[method]`,
and the route is unchanged; in every other case `Add` returns nil, and in the route after
the call the node the walk ended on has the table `t` with the one entry `method -> id`
appended (a lookup of `method` gives `id`, a lookup of any other key gives what `t`
gave), with its segment and children as before, while every other node is where it was
with its segment, its table and its children's segments unchanged. The pointer the walk
returns is the node at its path. -/
theorem Add_method_table_conflicts (E : Env) (r : Route) (api : API) (seed : Nat)
    (parsed : List node) (parent : Pointer) (matchedIdx : Nat) (t : List (String × Nat))
    (hparse : api.URLPattern = Except.ok parsed)
    (hwalk : addLoop ⟨[], r.root⟩ 0 0 (removeSlash parsed) = some (parent, matchedIdx))
    (hfull : matchedIdx + 1 = (removeSlash parsed).length)
    (htable : parent.item.apis = some t)
    (hnz : ∀ e ∈ t, e.2 ≠ 0) :
    r.root.nodeAt parent.path = some parent.item ∧
    ((∃ e, (Add E r api seed).map Prod.snd = some (some e)) ↔
      ((api.Method = "*" ∧ t ≠ []) ∨ "*" ∈ t.map Prod.fst ∨ api.Method ∈ t.map Prod.fst)) ∧
    (api.Method = "*" ∧ t ≠ [] →
      ∃ id ∈ t.map Prod.snd, Add E r api seed = some (r, some (AddError.conflict id))) ∧
    (¬ (api.Method = "*" ∧ t ≠ []) → "*" ∈ t.map Prod.fst →
      Add E r api seed = some (r, some (AddError.conflict (mapIndex t "*")))) ∧
    (¬ (api.Method = "*" ∧ t ≠ []) → "*" ∉ t.map Prod.fst → api.Method ∈ t.map Prod.fst →
      Add E r api seed = some (r, some (AddError.conflict (mapIndex t api.Method)))) ∧
    (¬ (api.Method = "*" ∧ t ≠ []) → "*" ∉ t.map Prod.fst → api.Method ∉ t.map Prod.fst →
      ∃ r', Add E r api seed = some (r', none) ∧
        r' = ⟨r.root.updateAt
          (fun p => p.setApis (t ++ [(api.Method, api.ID)])) parent.path⟩ ∧
        r'.root.nodeAt parent.path = some (routeItem.mk parent.item.node
          parent.item.children (some (t ++ [(api.Method, api.ID)]))) ∧
        (∀ k, (t ++ [(api.Method, api.ID)]).lookup k =
          if k = api.Method then some api.ID else t.lookup k) ∧
        (∀ q x, r.root.nodeAt q = some x → q ≠ parent.path →
          ∃ x', r'.root.nodeAt q = some x' ∧ x'.node = x.node ∧ x'.apis = x.apis ∧
            x'.children.map routeItem.node = x.children.map routeItem.node)) := by
  have hptr := addLoop_pointer r.root _ ⟨[], r.root⟩ _ _ _ _ rfl hwalk
  have hlen : (t.length > 0) ↔ t ≠ [] := List.length_pos
  have hstar := mapIndex_ne_zero_iff t hnz "*"
  have hmeth := mapIndex_ne_zero_iff t hnz api.Method
  have c1 : api.Method = "*" ∧ t ≠ [] →
      Add E r api seed = some (r, some (AddError.conflict (mapRangeFirst t seed))) := by
    intro h
    simp [Add, hparse, hwalk, hfull, htable, h.1, h.2, List.length_pos]
  have c2 : ¬ (api.Method = "*" ∧ t ≠ []) → "*" ∈ t.map Prod.fst →
      Add E r api seed = some (r, some (AddError.conflict (mapIndex t "*"))) := by
    intro h1 h2
    have h3 : ¬ (api.Method = "*" ∧ t.length > 0) := by rw [hlen]; exact h1
    have h4 := hstar.mpr h2
    simp only [Add, hparse, hwalk, hfull, htable, if_true, if_neg h3, if_pos h4]
  have c3 : ¬ (api.Method = "*" ∧ t ≠ []) → "*" ∉ t.map Prod.fst →
      api.Method ∈ t.map Prod.fst →
      Add E r api seed = some (r, some (AddError.conflict (mapIndex t api.Method))) := by
    intro h1 h2 h5
    have h3 : ¬ (api.Method = "*" ∧ t.length > 0) := by rw [hlen]; exact h1
    have h4 : ¬ (mapIndex t "*" ≠ 0) := fun h => h2 (hstar.mp h)
    have h6 := hmeth.mpr h5
    simp only [Add, hparse, hwalk, hfull, htable, if_true, if_neg h3, if_neg h4, if_pos h6]
  have c4 : ¬ (api.Method = "*" ∧ t ≠ []) → "*" ∉ t.map Prod.fst →
      api.Method ∉ t.map Prod.fst →
      Add E r api seed = some (⟨r.root.updateAt
        (fun p => p.setApis (t ++ [(api.Method, api.ID)])) parent.path⟩, none) := by
    intro h1 h2 h5
    have h3 : ¬ (api.Method = "*" ∧ t.length > 0) := by rw [hlen]; exact h1
    have h4 : ¬ (mapIndex t "*" ≠ 0) := fun h => h2 (hstar.mp h)
    have h6 : ¬ (mapIndex t api.Method ≠ 0) := fun h => h5 (hmeth.mp h)
    simp only [Add, hparse, hwalk, hfull, htable, if_true, if_neg h3, if_neg h4, if_neg h6,
      mapSet_of_not_mem t _ _ h5]
  have c5 : ¬ (api.Method = "*" ∧ t ≠ []) → "*" ∉ t.map Prod.fst →
      api.Method ∉ t.map Prod.fst →
      ∃ r', Add E r api seed = some (r', none) ∧
        r' = ⟨r.root.updateAt
          (fun p => p.setApis (t ++ [(api.Method, api.ID)])) parent.path⟩ ∧
        r'.root.nodeAt parent.path = some (routeItem.mk parent.item.node
          parent.item.children (some (t ++ [(api.Method, api.ID)]))) ∧
        (∀ k, (t ++ [(api.Method, api.ID)]).lookup k =
          if k = api.Method then some api.ID else t.lookup k) ∧
        (∀ q x, r.root.nodeAt q = some x → q ≠ parent.path →
          ∃ x', r'.root.nodeAt q = some x' ∧ x'.node = x.node ∧ x'.apis = x.apis ∧
            x'.children.map routeItem.node = x.children.map routeItem.node) := by
    intro h1 h2 h5
    refine ⟨_, c4 h1 h2 h5, rfl, ?_, lookup_append_single t _ _ h5, ?_⟩
    · exact nodeAt_updateAt _ _ _ _ hptr
    · intro q x hq hne
      exact nodeAt_updateAt_setApis _ _ q _ x hq hne
  refine ⟨hptr, ?_,
    fun h => ⟨_, mapRangeFirst_mem t seed h.2, c1 h⟩, c2, c3, c5⟩
  by_cases k1 : api.Method = "*" ∧ t ≠ []
  · simp [c1 k1, k1]
  · by_cases k2 : "*" ∈ t.map Prod.fst
    · simp only [c2 k1 k2, k2, true_or, or_true, iff_true]; exact ⟨_, rfl⟩
    · by_cases k3 : api.Method ∈ t.map Prod.fst
      · simp only [c3 k1 k2 k3, k3, true_or, or_true, iff_true]; exact ⟨_, rfl⟩
      · simp [c4 k1 k2 k3, k1, k2, k3]

/-- C4 at a node registered for `GET` with id 1: a second registration of the same
pattern under `GET` is refused with `conflict with api 1`, and a registration under
`POST` with id 2 returns nil and leaves the node with the table `GET -> 1, POST -> 2`. -/
theorem Add_method_table_conflicts_GET_POST :
    Add goEnv ⟨routeItem.mk slashSeg [routeItem.mk (constSeg "a") [] (some [("GET", 1)])] none⟩
      ⟨2, Except.ok [slashSeg, constSeg "a"], "GET"⟩ 0 =
    some (⟨routeItem.mk slashSeg [routeItem.mk (constSeg "a") [] (some [("GET", 1)])] none⟩,
      some (AddError.conflict (mapIndex [("GET", 1)] "GET"))) ∧
    ∃ r', Add goEnv ⟨routeItem.mk slashSeg [routeItem.mk (constSeg "a") []
          (some [("GET", 1)])] none⟩ ⟨2, Except.ok [slashSeg, constSeg "a"], "POST"⟩ 0
        = some (r', none) ∧
      r' = ⟨routeItem.mk slashSeg [routeItem.mk (constSeg "a") []
          (some [("GET", 1), ("POST", 2)])] none⟩ ∧
      r'.root.nodeAt [0] = some (routeItem.mk (constSeg "a") []
          (some [("GET", 1), ("POST", 2)])) ∧
      (∀ k, List.lookup k [("GET", 1), ("POST", 2)] =
        if k = "POST" then some 2 else List.lookup k [("GET", 1)]) ∧
      (∀ q x, (routeItem.mk slashSeg [routeItem.mk (constSeg "a") []
          (some [("GET", 1)])] none).nodeAt q = some x → q ≠ [0] →
        ∃ x', r'.root.nodeAt q = some x' ∧ x'.node = x.node ∧ x'.apis = x.apis ∧
          x'.children.map routeItem.node = x.children.map routeItem.node) :=
  ⟨(Add_method_table_conflicts goEnv
      ⟨routeItem.mk slashSeg [routeItem.mk (constSeg "a") [] (some [("GET", 1)])] none⟩
      ⟨2, Except.ok [slashSeg, constSeg "a"], "GET"⟩ 0 [slashSeg, constSeg "a"]
      ⟨[0], routeItem.mk (constSeg "a") [] (some [("GET", 1)])⟩ 1 [("GET", 1)]
      rfl rfl rfl rfl (by decide)).2.2.2.2.1 (by decide) (by decide) (by decide),
    (Add_method_table_conflicts goEnv
      ⟨routeItem.mk slashSeg [routeItem.mk (constSeg "a") [] (some [("GET", 1)])] none⟩
      ⟨2, Except.ok [slashSeg, constSeg "a"], "POST"⟩ 0 [slashSeg, constSeg "a"]
      ⟨[0], routeItem.mk (constSeg "a") [] (some [("GET", 1)])⟩ 1 [("GET", 1)]
      rfl rfl rfl rfl (by decide)).2.2.2.2.2 (by decide) (by decide) (by decide)⟩

theorem matches_self (c : routeItem) (n : node) (hk : validKind n.nt) (hc : c.node = n) :
    c.matches n = some true := by
  unfold routeItem.matches
  rw [hc]
  rcases hk with h | h | h | h | h <;> simp [h]

theorem addLoop_chain (E : Env) (id : Nat) (m : String) (rest : List node) (n : node)
    (path : List Nat) (idx mi : Nat) (hidx : idx = mi + 1)
    (hv : ∀ x ∈ rest, validKind x.nt) (hch : List.Chain node.Distinct n rest) :
    ∃ ptr, addLoop ⟨path, routeItem.addChildren E id m rest (routeItem.mk n [] none)⟩ idx mi
        rest = some (ptr, idx + rest.length - 1) ∧
      ptr.item.apis = some [(m, id)] := by
  induction rest generalizing n path idx mi with
  | nil =>
    refine ⟨⟨path, routeItem.addChildren E id m [] (routeItem.mk n [] none)⟩, ?_, ?_⟩
    · simp only [addLoop, List.length_nil, Nat.add_zero]
      rw [hidx]
      rfl
    · simp [routeItem.addChildren, routeItem.setApis, mapSet, List.lookup]
  | cons n2 rest2 ih =>
    rw [List.chain_cons] at hch
    have hk2 : validKind n2.nt := hv n2 (by simp)
    obtain ⟨ptr, h1, h2⟩ := ih n2 (path ++ [0]) (idx + 1) idx rfl
      (fun x hx => hv x (List.mem_cons_of_mem _ hx)) hch.2
    refine ⟨ptr, ?_, h2⟩
    have hm1 : (routeItem.mk n [routeItem.addChildren E id m rest2 (routeItem.mk n2 [] none)]
        none).matches n2 = some false := distinct_matches_false _ _ hch.1
    have hm2 : (routeItem.addChildren E id m rest2 (routeItem.mk n2 [] none)).matches n2
        = some true := matches_self _ _ hk2 (addChildren_node E id m rest2 _)
    simp only [routeItem.addChildren, routeItem.setChildren, routeItem.children_mk,
      List.nil_append, sortSlice_singleton, routeItem.node_mk, routeItem.apis_mk, addLoop,
      hm1, scanChildren, hm2, h1, List.length_cons]
    congr 2
    omega

theorem tail_not_slash (a : node) (q : List node) :
    ∀ n ∈ (removeSlash (a :: q)).tail, n.nt ≠ slashType := by
  intro n hn
  rw [removeSlash_cons] at hn
  simpa using (List.mem_filter.mp hn).2

theorem walk_after_first_Add (E : Env) (id : Nat) (m : String) (seed : Nat) (a : node)
    (q : List node) (r1 : Route) (ha : a.nt = slashType) (hv : ∀ n ∈ q, validKind n.nt)
    (hch : List.Chain' node.Distinct (removeSlash (a :: q)))
    (h1 : Add E NewRoute ⟨id, Except.ok (a :: q), m⟩ seed = some (r1, none)) :
    ∃ parent, addLoop ⟨[], r1.root⟩ 0 0 (removeSlash (a :: q)) =
        some (parent, (removeSlash (a :: q)).length - 1) ∧
      parent.item.apis = some [(m, id)] := by
  have hns := tail_not_slash a q
  have hvr : ∀ n ∈ (removeSlash (a :: q)).tail, validKind n.nt := by
    intro n hn
    rw [removeSlash_cons] at hn
    exact hv n (List.mem_filter.mp hn).1
  rw [removeSlash_cons] at hch hns hvr ⊢
  simp only [Add, removeSlash_cons] at h1
  generalize q.filter (fun n => decide (n.nt ≠ slashType)) = rest at hch hns hvr h1 ⊢
  cases rest with
  | nil =>
    simp [NewRoute, addLoop, routeItem.matches, ha, routeItem.updateAt, routeItem.setApis,
      mapSet, List.lookup] at h1
    subst h1
    exact ⟨⟨[], routeItem.mk ⟨slashType, [], false, []⟩ [] (some [(m, id)])⟩,
      by simp [addLoop, routeItem.matches, ha], rfl⟩
  | cons n rest =>
    have hn : n.nt ≠ slashType := hns n (by simp)
    have hn' : ¬ slashType = n.nt := fun h => hn h.symm
    simp [NewRoute, addLoop, routeItem.matches, ha, hn', scanChildren, routeItem.updateAt,
      routeItem.addChildren, routeItem.setChildren, sortSlice_singleton] at h1
    subst h1
    rw [List.chain'_cons] at hch
    obtain ⟨ptr, h2, h3⟩ := addLoop_chain E id m rest n [0] 2 1 rfl
      (fun x hx => hvr x (by simp [hx])) hch.2
    have hm2 : (routeItem.addChildren E id m rest (routeItem.mk n [] none)).matches n
        = some true := matches_self _ _ (hvr n (by simp)) (addChildren_node E id m rest _)
    have hr0 : (routeItem.mk ⟨slashType, [], false, []⟩
        [routeItem.addChildren E id m rest (routeItem.mk n [] none)] none).matches a
        = some true := by
      simp [routeItem.matches, ha]
    have hr1 : (routeItem.mk ⟨slashType, [], false, []⟩
        [routeItem.addChildren E id m rest (routeItem.mk n [] none)] none).matches n
        = some false := by
      simp [routeItem.matches, hn']
    refine ⟨ptr, ?_, h3⟩
    simp only [addLoop, hr0, hr1, routeItem.children_mk, scanChildren, hm2, List.nil_append,
      List.length_cons, h2]
    congr 2
    omega

/-- C13: identifier 0 is the absent sentinel of the conflict check. For every pattern of
segments of the five kinds and every method other than `*`, once `Add` of the pattern
with identifier 0 has returned nil on the empty route, the route holds a node whose
table has the entry `method -> 0`, and `Add` of the same pattern under the same method
with any identifier returns nil. When the pattern begins with a `Slash` and has no two
adjacent StructuralEquals segments, the second walk consumes the whole pattern on the
very node whose table is `method -> 0`; the conflict check reads `t["*"] = 0` and
`t[method] = 0` there, `Add` returns nil, and that node's table is `method -> id2`
afterwards. The stored zero is what lets it through: with a non-zero first identifier
the same second call returns `conflict with api id1` and leaves the route as it was. -/
theorem Add_after_zero_id (E : Env) (p : List node) (m : String) (id2 seed1 seed2 : Nat)
    (r1 : Route) (hkinds : ∀ n ∈ p, validKind n.nt) (hm : m ≠ "*")
    (h1 : Add E NewRoute ⟨0, Except.ok p, m⟩ seed1 = some (r1, none)) :
    (∃ path t tb, r1.root.nodeAt path = some t ∧ t.apis = some tb ∧
      tb.lookup m = some 0) ∧
    (∃ r2, Add E r1 ⟨id2, Except.ok p, m⟩ seed2 = some (r2, none)) ∧
    ((∃ a q, p = a :: q ∧ a.nt = slashType) →
      List.Chain' node.Distinct (removeSlash p) →
      ∃ parent matchedIdx r2,
        addLoop ⟨[], r1.root⟩ 0 0 (removeSlash p) = some (parent, matchedIdx) ∧
        matchedIdx + 1 = (removeSlash p).length ∧
        r1.root.nodeAt parent.path = some parent.item ∧
        parent.item.apis = some [(m, 0)] ∧
        mapIndex [(m, 0)] "*" = 0 ∧ mapIndex [(m, 0)] m = 0 ∧
        Add E r1 ⟨id2, Except.ok p, m⟩ seed2 = some (r2, none) ∧
        r2.root.nodeAt parent.path = some (routeItem.mk parent.item.node
          parent.item.children (some [(m, id2)]))) ∧
    (∀ (id1 seed : Nat) (r1' : Route), id1 ≠ 0 →
      (∃ a q, p = a :: q ∧ a.nt = slashType) →
      List.Chain' node.Distinct (removeSlash p) →
      Add E NewRoute ⟨id1, Except.ok p, m⟩ seed = some (r1', none) →
      Add E r1' ⟨id2, Except.ok p, m⟩ seed2 = some (r1', some (AddError.conflict id1))) := by
  have hms : ("*" == m) = false := by simpa using Ne.symm hm
  have key : ∀ (id1 seed : Nat) (r : Route),
      (∃ a q, p = a :: q ∧ a.nt = slashType) →
      List.Chain' node.Distinct (removeSlash p) →
      Add E NewRoute ⟨id1, Except.ok p, m⟩ seed = some (r, none) →
      ∃ parent matchedIdx,
        addLoop ⟨[], r.root⟩ 0 0 (removeSlash p) = some (parent, matchedIdx) ∧
        matchedIdx + 1 = (removeSlash p).length ∧
        r.root.nodeAt parent.path = some parent.item ∧
        parent.item.apis = some [(m, id1)] := by
    intro id1 seed r hs hch hadd
    obtain ⟨a, q, rfl, ha⟩ := hs
    obtain ⟨parent, hw, hap⟩ := walk_after_first_Add E id1 m seed a q r ha
      (fun n hn => hkinds n (List.mem_cons_of_mem _ hn)) hch hadd
    refine ⟨parent, _, hw, ?_, addLoop_pointer r.root _ ⟨[], r.root⟩ _ _ _ _ rfl hw, hap⟩
    rw [removeSlash_cons]
    simp
  refine ⟨first_Add_entry E ⟨0, Except.ok p, m⟩ seed1 r1 h1, ?_, ?_, ?_⟩
  · have hv : API.validKinds ⟨0, Except.ok p, m⟩ := by
      intro q hq
      cases hq
      exact hkinds
    have hr1 : ReachableBy E (fun api => api.ID = 0 ∧ api.validKinds) r1 :=
      ReachableBy.add ReachableBy.new ⟨rfl, hv⟩ h1
    have hz := every_zero_of_reachable E r1 (ReachableBy.mono E _ _ (fun _ h => h.1) r1 hr1)
    have hk := every_valid_of_reachable E r1 (ReachableBy.mono E _ _ (fun _ h => h.2) r1 hr1)
    have hne : p ≠ [] := by
      rintro rfl
      simp [Add, removeSlash, removeSlashFrom, addLoop] at h1
    have hlen : 0 < (removeSlash p).length := by
      cases p with
      | nil => exact absurd rfl hne
      | cons a t => simp [removeSlash_cons]
    obtain ⟨⟨parent, mi⟩, hw⟩ := addLoop_isSome (removeSlash p) ⟨[], r1.root⟩ 0 0 hk
    have hptr := addLoop_pointer r1.root _ ⟨[], r1.root⟩ _ _ _ _ rfl hw
    have hzp : parent.item.ZeroTable := every_nodeAt _ _ _ hz hptr
    have hb := addLoop_matchedIdx _ _ _ _ _ _ hw
    by_cases hfull : mi + 1 = (removeSlash p).length
    · cases hap : parent.item.apis with
      | none => simp [Add, hw, hfull, hap]
      | some t =>
        have z1 := mapIndex_zero t (hzp t hap) "*"
        have z2 := mapIndex_zero t (hzp t hap) m
        simp [Add, hw, hfull, hap, hm, z1, z2]
    · have hle : mi + 1 ≤ (removeSlash p).length := by omega
      simp [Add, hw, hfull, hle]
  · intro hs hch
    obtain ⟨parent, mi, hw, hfull, hptr, hap⟩ := key 0 seed1 r1 hs hch h1
    have z1 : mapIndex [(m, 0)] "*" = 0 := by simp [mapIndex, List.lookup, hms]
    have z2 : mapIndex [(m, 0)] m = 0 := by simp [mapIndex, List.lookup]
    have hset : mapSet [(m, 0)] m id2 = [(m, id2)] := by simp [mapSet, List.lookup]
    have hadd : Add E r1 ⟨id2, Except.ok p, m⟩ seed2 = some (⟨r1.root.updateAt
        (fun x => x.setApis [(m, id2)]) parent.path⟩, none) := by
      simp [Add, hw, hfull, hap, hm, z1, z2, hset]
    exact ⟨parent, mi, _, hw, hfull, hptr, hap, z1, z2, hadd,
      nodeAt_updateAt _ _ _ _ hptr⟩
  · intro id1 seed r1' hid hs hch hadd
    obtain ⟨parent, mi, hw, hfull, hptr, hap⟩ := key id1 seed r1' hs hch hadd
    have z1 : mapIndex [(m, id1)] "*" = 0 := by simp [mapIndex, List.lookup, hms]
    have z2 : mapIndex [(m, id1)] m = id1 := by simp [mapIndex, List.lookup]
    simp [Add, hw, hfull, hap, hm, z1, z2, hid]

/-- C13 at `/a` under `GET`: after the registration with identifier 0, the registration
with identifier 5 ends on the node holding `GET -> 0`, returns nil and leaves `GET -> 5`
there; after a registration with identifier 3 it is refused with `conflict with api 3`. -/
theorem Add_after_zero_id_overwrites :
    (∃ parent matchedIdx r2,
      addLoop ⟨[], routeItem.mk slashSeg [routeItem.mk (constSeg "a") []
        (some [("GET", 0)])] none⟩ 0 0 (removeSlash [slashSeg, constSeg "a"])
        = some (parent, matchedIdx) ∧
      matchedIdx + 1 = (removeSlash [slashSeg, constSeg "a"]).length ∧
      (routeItem.mk slashSeg [routeItem.mk (constSeg "a") []
        (some [("GET", 0)])] none).nodeAt parent.path = some parent.item ∧
      parent.item.apis = some [("GET", 0)] ∧
      mapIndex [("GET", 0)] "*" = 0 ∧ mapIndex [("GET", 0)] "GET" = 0 ∧
      Add goEnv ⟨routeItem.mk slashSeg [routeItem.mk (constSeg "a") []
        (some [("GET", 0)])] none⟩ ⟨5, Except.ok [slashSeg, constSeg "a"], "GET"⟩ 0
        = some (r2, none) ∧
      r2.root.nodeAt parent.path = some (routeItem.mk parent.item.node
        parent.item.children (some [("GET", 5)]))) ∧
    Add goEnv ⟨routeItem.mk slashSeg [routeItem.mk (constSeg "a") []
        (some [("GET", 3)])] none⟩ ⟨5, Except.ok [slashSeg, constSeg "a"], "GET"⟩ 0
      = some (⟨routeItem.mk slashSeg [routeItem.mk (constSeg "a") []
        (some [("GET", 3)])] none⟩, some (AddError.conflict 3)) :=
  ⟨(Add_after_zero_id goEnv [slashSeg, constSeg "a"] "GET" 5 0 0
      ⟨routeItem.mk slashSeg [routeItem.mk (constSeg "a") [] (some [("GET", 0)])] none⟩
      (by intro n hn; simp at hn; rcases hn with rfl | rfl <;> simp [validKind, slashSeg, constSeg])
      (by decide) rfl).2.2.1 ⟨_, _, rfl, rfl⟩
      (by simp [removeSlash, removeSlashFrom, node.Distinct, slashSeg, constSeg]),
    (Add_after_zero_id goEnv [slashSeg, constSeg "a"] "GET" 5 0 0
      ⟨routeItem.mk slashSeg [routeItem.mk (constSeg "a") [] (some [("GET", 0)])] none⟩
      (by intro n hn; simp at hn; rcases hn with rfl | rfl <;> simp [validKind, slashSeg, constSeg])
      (by decide) rfl).2.2.2 3 0
      ⟨routeItem.mk slashSeg [routeItem.mk (constSeg "a") [] (some [("GET", 3)])] none⟩
      (by decide) ⟨_, _, rfl, rfl⟩
      (by simp [removeSlash, removeSlashFrom, node.Distinct, slashSeg, constSeg]) rfl⟩

/-- C5, on the code: the pattern `[Slash, Const c, Const c]` is registered only under `*`
with id `w` on the empty route, without error, and the lookup of the same segment
sequence under any method reports not found instead of `(w, true)`: the walk of `Find`
tests the current node before its children, takes the second literal on the first
literal's node and ends there, on a node without a method table, so the `*` entry one
level below is never consulted. -/
theorem Find_wildcard_repeated_literal (E : Env) (sv c a1 a2 sa : Bytes) (sh h1 h2 : Bool)
    (method : String) (w seed : Nat) {σ : Type} (paramsFunc : Option (Bytes → Bytes → σ → σ))
    (s : σ) :
    ∃ r, Add E NewRoute ⟨w, Except.ok [⟨slashType, sv, sh, sa⟩, ⟨constType, c, h1, a1⟩,
          ⟨constType, c, h2, a2⟩], "*"⟩ seed = some (r, none) ∧
      r = ⟨routeItem.mk ⟨slashType, [], false, []⟩
        [routeItem.mk ⟨constType, c, h1, a1⟩
          [routeItem.mk ⟨constType, c, h2, a2⟩ [] (some [("*", w)])] none] none⟩ ∧
      Find E r (Except.ok [⟨slashType, sv, sh, sa⟩, ⟨constType, c, h1, a1⟩,
          ⟨constType, c, h2, a2⟩]) method paramsFunc s =
        some ((0, false), callParams paramsFunc
          (routeItem.mk ⟨constType, c, h1, a1⟩
            [routeItem.mk ⟨constType, c, h2, a2⟩ [] (some [("*", w)])] none)
          ⟨constType, c, h2, a2⟩
          (callParams paramsFunc
            (routeItem.mk ⟨constType, c, h1, a1⟩
              [routeItem.mk ⟨constType, c, h2, a2⟩ [] (some [("*", w)])] none)
            ⟨constType, c, h1, a1⟩ s)) := by
  have hadd : Add E NewRoute ⟨w, Except.ok [⟨slashType, sv, sh, sa⟩,
      ⟨constType, c, h1, a1⟩, ⟨constType, c, h2, a2⟩], "*"⟩ seed =
      some (⟨routeItem.mk ⟨slashType, [], false, []⟩
        [routeItem.mk ⟨constType, c, h1, a1⟩
          [routeItem.mk ⟨constType, c, h2, a2⟩ [] (some [("*", w)])] none] none⟩, none) := by
    simp [Add, NewRoute, removeSlash, removeSlashFrom, addLoop, routeItem.matches,
      scanChildren, routeItem.updateAt, routeItem.addChildren, routeItem.setChildren,
      routeItem.setApis, sortSlice_singleton, mapSet]
  refine ⟨_, hadd, rfl, ?_⟩
  simp [Find, findLoop, routeItem.urlMatches, findResult, removeSlash, removeSlashFrom,
    scanChildren, callParams]

end route
